import Mathlib

/-!
Verification of the sync_idb replication engine.

This file is a shallow embedding of the core of the repository:

* `MergeManager` (content fingerprint `normalizeForHash`/`generateHash`,
  `fieldLevelMerge`, `mergeObjects`) — from `src/modulos/MergeManager.ts`
  (the canonical field-level-merge version used by the sync route),
* the version-ledger sync route (`addVersionLog`, the bulk POST handler,
  PUT/PATCH/DELETE handlers, the differential read `GET .../from/:version`)
  — from `src/routes/syncRoute.ts`,
* the websocket fan-out (`NotificationManager.broadcast`) — from
  `src/websocket/stockManager.ts`,
* the batch task endpoint (`POST /sync/tasks`) — from
  `src/routes/newsyncRoute.ts`.

Modelling conventions:

* JSON values are the inductive `JVal`; JavaScript objects are association
  lists in insertion order (JS objects preserve insertion order and never
  hold duplicate keys, so the modelled domain is lists with pairwise
  distinct keys).  `JSON.stringify` equality of defined JSON values is
  structural equality of `JVal`.
* Timestamps (`created_at`, `updated_at`, ISO strings in the source) are
  represented by their epoch value as `JVal.num`: `new Date(x)` comparisons
  in the source are order comparisons of those epoch values, and
  `new Date().toISOString()` is modelled by a `now : Int` parameter.
  Records with non-numeric timestamp fields are outside the modelled
  domain.
* `generateHash` is SHA-256 of the deterministic serialization of
  `normalizeForHash`; the hash is modelled as `normalizeForHash` itself,
  i.e. digests are compared up to the collision-freeness of SHA-256.
* `async` I/O (load/save through the persistence adapter) is modelled by
  passing the loaded store in and returning the saved store (or `none`
  when the handler returns without saving).  Console logging and the
  conflict observability log are side effects not modelled.
-/

namespace SyncIdb

/- JSON-like values.  `arr`/`obj` use the mutual types `JArr`/`JObj` so
that all recursion over values is structural (and hence computes). -/
mutual

inductive JVal where
  | null
  | bool (b : Bool)
  | num (n : Int)
  | str (s : String)
  | arr (xs : JArr)
  | obj (fs : JObj)

inductive JArr where
  | nil
  | cons (hd : JVal) (tl : JArr)

inductive JObj where
  | nil
  | cons (k : String) (v : JVal) (tl : JObj)

end

mutual

def JVal.decEq : (a b : JVal) → Decidable (a = b)
  | .null, .null => .isTrue rfl
  | .bool x, .bool y =>
    match instDecidableEqBool x y with
    | .isTrue h => .isTrue (by rw [h])
    | .isFalse h => .isFalse (by intro hc; cases hc; exact h rfl)
  | .num x, .num y =>
    match Int.instDecidableEq x y with
    | .isTrue h => .isTrue (by rw [h])
    | .isFalse h => .isFalse (by intro hc; cases hc; exact h rfl)
  | .str x, .str y =>
    match String.decEq x y with
    | .isTrue h => .isTrue (by rw [h])
    | .isFalse h => .isFalse (by intro hc; cases hc; exact h rfl)
  | .arr x, .arr y =>
    match JArr.decEq x y with
    | .isTrue h => .isTrue (by rw [h])
    | .isFalse h => .isFalse (by intro hc; cases hc; exact h rfl)
  | .obj x, .obj y =>
    match JObj.decEq x y with
    | .isTrue h => .isTrue (by rw [h])
    | .isFalse h => .isFalse (by intro hc; cases hc; exact h rfl)
  | .null, .bool _ => .isFalse (by intro h; cases h)
  | .null, .num _ => .isFalse (by intro h; cases h)
  | .null, .str _ => .isFalse (by intro h; cases h)
  | .null, .arr _ => .isFalse (by intro h; cases h)
  | .null, .obj _ => .isFalse (by intro h; cases h)
  | .bool _, .null => .isFalse (by intro h; cases h)
  | .bool _, .num _ => .isFalse (by intro h; cases h)
  | .bool _, .str _ => .isFalse (by intro h; cases h)
  | .bool _, .arr _ => .isFalse (by intro h; cases h)
  | .bool _, .obj _ => .isFalse (by intro h; cases h)
  | .num _, .null => .isFalse (by intro h; cases h)
  | .num _, .bool _ => .isFalse (by intro h; cases h)
  | .num _, .str _ => .isFalse (by intro h; cases h)
  | .num _, .arr _ => .isFalse (by intro h; cases h)
  | .num _, .obj _ => .isFalse (by intro h; cases h)
  | .str _, .null => .isFalse (by intro h; cases h)
  | .str _, .bool _ => .isFalse (by intro h; cases h)
  | .str _, .num _ => .isFalse (by intro h; cases h)
  | .str _, .arr _ => .isFalse (by intro h; cases h)
  | .str _, .obj _ => .isFalse (by intro h; cases h)
  | .arr _, .null => .isFalse (by intro h; cases h)
  | .arr _, .bool _ => .isFalse (by intro h; cases h)
  | .arr _, .num _ => .isFalse (by intro h; cases h)
  | .arr _, .str _ => .isFalse (by intro h; cases h)
  | .arr _, .obj _ => .isFalse (by intro h; cases h)
  | .obj _, .null => .isFalse (by intro h; cases h)
  | .obj _, .bool _ => .isFalse (by intro h; cases h)
  | .obj _, .num _ => .isFalse (by intro h; cases h)
  | .obj _, .str _ => .isFalse (by intro h; cases h)
  | .obj _, .arr _ => .isFalse (by intro h; cases h)

def JArr.decEq : (a b : JArr) → Decidable (a = b)
  | .nil, .nil => .isTrue rfl
  | .nil, .cons _ _ => .isFalse (by intro h; cases h)
  | .cons _ _, .nil => .isFalse (by intro h; cases h)
  | .cons x xs, .cons y ys =>
    match JVal.decEq x y, JArr.decEq xs ys with
    | .isTrue h1, .isTrue h2 => .isTrue (by rw [h1, h2])
    | .isFalse h1, _ => .isFalse (by intro hc; cases hc; exact h1 rfl)
    | _, .isFalse h2 => .isFalse (by intro hc; cases hc; exact h2 rfl)

def JObj.decEq : (a b : JObj) → Decidable (a = b)
  | .nil, .nil => .isTrue rfl
  | .nil, .cons _ _ _ => .isFalse (by intro h; cases h)
  | .cons _ _ _, .nil => .isFalse (by intro h; cases h)
  | .cons k v xs, .cons l w ys =>
    match String.decEq k l, JVal.decEq v w, JObj.decEq xs ys with
    | .isTrue h0, .isTrue h1, .isTrue h2 => .isTrue (by rw [h0, h1, h2])
    | .isFalse h0, _, _ => .isFalse (by intro hc; cases hc; exact h0 rfl)
    | _, .isFalse h1, _ => .isFalse (by intro hc; cases hc; exact h1 rfl)
    | _, _, .isFalse h2 => .isFalse (by intro hc; cases hc; exact h2 rfl)

end

instance : DecidableEq JVal := JVal.decEq
instance : DecidableEq JArr := JArr.decEq
instance : DecidableEq JObj := JObj.decEq

/-- A JavaScript object at the record level: key/value pairs in insertion
order.  The route-level code only uses flat list operations on these, so
plain lists are used; nesting into `JVal` goes through `toJObj`. -/
abbrev Obj := List (String × JVal)

def List.toJObj : Obj → JObj
  | [] => .nil
  | (k, v) :: fs => .cons k v (List.toJObj fs)

def JObj.toList : JObj → Obj
  | .nil => []
  | .cons k v tl => (k, v) :: JObj.toList tl

def JArr.toList : JArr → List JVal
  | .nil => []
  | .cons x tl => x :: JArr.toList tl

/-- Property read `o[k]` — `none` models JavaScript `undefined` (property absent). -/
def getv (o : Obj) (k : String) : Option JVal :=
  (o.find? (fun p => p.1 = k)).map (fun p => p.2)

/-- Membership test `k in o`. -/
def hasKey (o : Obj) (k : String) : Bool :=
  o.any (fun p => p.1 = k)

/-- Assignment `o[k] = v`: update in place if the key exists, else append
(JavaScript property insertion order). -/
def setKey (o : Obj) (k : String) (v : JVal) : Obj :=
  if hasKey o k then o.map (fun p => if p.1 = k then (k, v) else p)
  else o ++ [(k, v)]

def keys (o : Obj) : List String := o.map (fun p => p.1)

/-- JavaScript truthiness of a defined value (`NaN` excluded from the
modelled domain). -/
def truthy : JVal → Bool
  | .null => false
  | .bool b => b
  | .num n => n ≠ 0
  | .str s => s ≠ ""
  | .arr _ => true
  | .obj _ => true

/-- Defaulting `a || b` for a possibly-undefined `a`. -/
def jsOr (a : Option JVal) (b : Option JVal) : Option JVal :=
  match a with
  | some v => if truthy v then some v else b
  | none => b

/-- Defaulting `a || d` with a defined fallback. -/
def jsOrD (a : Option JVal) (d : JVal) : JVal :=
  match a with
  | some v => if truthy v then v else d
  | none => d

/-- Models `new Date(x).getTime()` for the modelled domain, where timestamp
values are epoch numbers (non-numeric timestamps are outside the
modelled domain). -/
def timeOf : JVal → Int
  | .num n => n
  | _ => 0

/-- Effective time source `x.updated_at || x.created_at || 0`, the argument of `new Date(...)`
in `MergeManager.mergeObjects`. -/
def effVal (o : Obj) : JVal :=
  jsOrD (getv o "updated_at") (jsOrD (getv o "created_at") (.num 0))

/-- The effective timestamp of a record
(`new Date(x.updated_at || x.created_at || 0)`). -/
def effTime (o : Obj) : Int := timeOf (effVal o)

/-! ## Canonical hasher (`MergeManager.normalizeForHash` / `generateHash`) -/

/-- The volatile metadata keys stripped before hashing
(`keysToExclude` in `MergeManager.normalizeForHash`). -/
def volatileKeys : List String :=
  ["created_at", "updated_at", "synced_at", "version", "hash", "client_id"]

/-- Lexicographic comparison of character lists by code point
(`Object.keys(...).sort()` compares keys by UTF-16 code units, which
agrees with code points outside the surrogate-pair range; keys needing
surrogate pairs are outside the modelled domain). -/
def charListLe : List Char → List Char → Bool
  | [], _ => true
  | _ :: _, [] => false
  | c :: cs, d :: ds =>
    if c.toNat < d.toNat then true
    else if d.toNat < c.toNat then false
    else charListLe cs ds

/-- The string order used by the default sort comparator. -/
def strLe (a b : String) : Bool := charListLe a.data b.data

/-- Insert one pair into a key-sorted field list, keeping it sorted
(used to model `Object.keys(data).sort()`). -/
def insertSorted (p : String × JVal) : Obj → Obj
  | [] => [p]
  | q :: qs => if strLe p.1 q.1 then p :: q :: qs else q :: insertSorted p qs

/-- Stable insertion sort of a field list by key. -/
def sortFields : Obj → Obj
  | [] => []
  | p :: ps => insertSorted p (sortFields ps)

def JObj.insertKV (k : String) (v : JVal) : JObj → JObj
  | .nil => .cons k v .nil
  | .cons k2 v2 tl =>
    if strLe k k2 then .cons k v (.cons k2 v2 tl)
    else .cons k2 v2 (insertKV k v tl)

def JObj.sortKeys : JObj → JObj
  | .nil => .nil
  | .cons k v tl => insertKV k v (sortKeys tl)

/- `normalizeForHash`: recursively strip the volatile keys from objects,
sort object keys, and keep everything else.  The source sorts the keys
first and then filters and recurses per key; here the fields are filtered
and recursed first and sorted afterwards — for JavaScript objects (no
duplicate keys; the sort is stable and compares keys only) the two orders
produce the identical result, and the reordering makes the recursion
structural. -/
mutual

def normalizeForHash : JVal → JVal
  | .null => .null
  | .bool b => .bool b
  | .num n => .num n
  | .str s => .str s
  | .arr xs => .arr (normalizeArr xs)
  | .obj fs => .obj (JObj.sortKeys (normalizeFields fs))

def normalizeArr : JArr → JArr
  | .nil => .nil
  | .cons x tl => .cons (normalizeForHash x) (normalizeArr tl)

def normalizeFields : JObj → JObj
  | .nil => .nil
  | .cons k v tl =>
    if volatileKeys.contains k then normalizeFields tl
    else .cons k (normalizeForHash v) (normalizeFields tl)

end

/-- The `generateHash` of a record: SHA-256 of the deterministic serialization
of `normalizeForHash`.  The digest is modelled by the normalized value
itself, i.e. digest equality is compared up to SHA-256 collision
freeness. -/
def fingerprint (o : Obj) : JVal :=
  normalizeForHash (.obj (List.toJObj o))

/-! ## Field merge engine (`MergeManager.fieldLevelMerge` / `mergeObjects`) -/

/-- The `created_at` case of the `fieldLevelMerge` loop: keep the earlier
creation time when the local one is truthy, else adopt the remote one. -/
def mergeCreatedAt (lc : Option JVal) (rv : JVal) : JVal :=
  match lc with
  | some c => if truthy c then (if timeOf c < timeOf rv then c else rv) else rv
  | none => rv

/-- One iteration of the `for (const key in remote)` loop of
`fieldLevelMerge`, acting on the accumulated `merged` object. -/
def flmStep (l : Obj) (lt rt : Int) (merged : Obj) (kv : String × JVal) : Obj :=
  if kv.1 = "created_at" then
    setKey merged "created_at" (mergeCreatedAt (getv l "created_at") kv.2)
  else if kv.1 = "id" then merged
  else if ¬ hasKey l kv.1 then setKey merged kv.1 kv.2
  else if getv l kv.1 ≠ some kv.2 then
    setKey merged kv.1 (if rt ≥ lt then kv.2 else ((getv l kv.1).getD kv.2))
  else merged

/-- Models `MergeManager.fieldLevelMerge(local, remote, localTime, remoteTime)`:
start from `{...local}` and fold the remote fields over it. -/
def fieldLevelMerge (l r : Obj) (lt rt : Int) : Obj :=
  r.foldl (flmStep l lt rt) l

/-- One entry of the `resolvedFields` conflict map:
`{local, remote, resolved, winner}` (undefined values kept as `none`). -/
structure ConflictEntry where
  localVal : Option JVal
  remoteVal : Option JVal
  resolved : Option JVal
  winner : String
deriving DecidableEq

/-- The conflict report of `mergeObjects`:
`{id: local.id || remote.id, resolvedFields, timestamp}`. -/
structure Conflict where
  id : Option JVal
  resolvedFields : List (String × ConflictEntry)
  timestamp : Int
deriving DecidableEq

/-- The `resolvedFields` loop of `mergeObjects`
(`for key in merged; if key in remote and serializations differ`). -/
def resolvedFieldsOf (l r merged : Obj) (lt rt : Int) :
    List (String × ConflictEntry) :=
  (keys merged).filterMap (fun k =>
    if hasKey r k ∧ getv l k ≠ getv r k then
      some (k, { localVal := getv l k, remoteVal := getv r k,
                 resolved := getv merged k,
                 winner := if rt ≥ lt then "remote" else "local" })
    else none)

/-- Spread update `{...o, k: x}` where `x` may be the undefined value.  A property
explicitly set to `undefined` is modelled as absent: it is
indistinguishable from an absent property by value reads, truthiness and
serialization, and no modelled code path applies the `in` operator to an
object built this way. -/
def setKeyU (o : Obj) (k : String) : Option JVal → Obj
  | some w => setKey o k w
  | none => o.filter (fun p => p.1 ≠ k)

/-- The merge strategies of `MergeManager` (`custom` carries the optional
`conflictResolver`). -/
inductive Strategy where
  | lastWriteWins
  | fieldLevelMerge
  | custom (resolver : Option (Obj → Obj → Obj))

/-- Models `MergeManager.mergeObjects(local, remote, {strategy})`, with `now` the
epoch value of `new Date().toISOString()` taken inside the call.  Returns
`{merged, conflict}`. -/
def mergeObjects (l r : Obj) (strat : Strategy) (now : Int) :
    Obj × Option Conflict :=
  let lt := effTime l
  let rt := effTime r
  if fingerprint l = fingerprint r then
    (setKeyU l "updated_at"
      (if rt > lt then getv r "updated_at" else getv l "updated_at"),
     none)
  else
    match strat with
    | .lastWriteWins =>
      (setKey (if rt ≥ lt then r else l) "updated_at" (.num now), none)
    | .fieldLevelMerge =>
      let m := fieldLevelMerge l r lt rt
      let rf := resolvedFieldsOf l r m lt rt
      (setKey m "updated_at" (.num now),
       if rf ≠ [] then
         some { id := jsOr (getv l "id") (getv r "id"),
                resolvedFields := rf, timestamp := now }
       else none)
    | .custom resolver =>
      (setKey
        (match resolver with
         | some f => f l r
         | none => if rt ≥ lt then r else l) "updated_at" (.num now),
       none)

/-! ## Version ledger and store state (`src/routes/syncRoute.ts`) -/

inductive Operation where
  | create
  | update
  | delete
  | bulk
deriving DecidableEq

/-- Structure `VersionLogEntry`.  `itemIds` is declared `string[]` in the source but
holds the raw identifying values pushed by the handlers (`item[idField]`
for the bulk route, the route parameter for single-record routes), so the
entries are modelled as raw values with `none` for `undefined`. -/
structure VersionLogEntry where
  version : Int
  timestamp : Int
  operation : Operation
  itemIds : List (Option JVal)
  clientId : String
deriving DecidableEq

/-- Structure `StoreMetadata`; `created_at`/`updated_at` as epoch values. -/
structure StoreMetadata where
  data : List Obj
  currentVersion : Int
  versionLog : List VersionLogEntry
  created_at : Int
  updated_at : Int
deriving DecidableEq

def initStoreMetadata (now : Int) : StoreMetadata :=
  { data := [], currentVersion := 0, versionLog := [],
    created_at := now, updated_at := now }

/-- Models `addVersionLog(storeMetadata, operation, itemIds, clientId)`: increment
`currentVersion`, push one entry carrying the new version, truncate the
log to its last 500 entries (`slice(-500)`) when it exceeds 1000.
Returns the updated store together with the returned new version. -/
def addVersionLog (s : StoreMetadata) (operation : Operation)
    (itemIds : List (Option JVal)) (clientId : String) (now : Int) :
    StoreMetadata × Int :=
  let cv := s.currentVersion + 1
  let log1 := s.versionLog ++
    [{ version := cv, timestamp := now, operation := operation,
       itemIds := itemIds, clientId := clientId }]
  let log2 := if log1.length > 1000 then log1.drop (log1.length - 500) else log1
  ({ s with currentVersion := cv, versionLog := log2 }, cv)

/-- Models `addVersionedData(data, isUpdate, clientId, newVersion)` (the
`isUpdate` parameter is unused in the source): spread plus
`created_at: data.created_at || now`, `updated_at: now`,
`version: newVersion`, `client_id: clientId`. -/
def addVersionedData (d : Obj) (clientId : String) (newVersion : Int)
    (now : Int) : Obj :=
  setKey (setKey (setKey (setKey d
    "created_at" (jsOrD (getv d "created_at") (.num now)))
    "updated_at" (.num now))
    "version" (.num newVersion))
    "client_id" (.str clientId)

/-! ### Bulk upsert (`POST /sync/:dbName/:storeName`) -/

/-- A JavaScript `Map` keyed by raw values (`none` = `undefined` key),
as an insertion-ordered association list. -/
abbrev JsMap := List (Option JVal × Obj)

def mapGet (m : JsMap) (k : Option JVal) : Option Obj :=
  (m.find? (fun p => p.1 = k)).map (fun p => p.2)

/-- Models `Map.set`: replace in place when the key exists, else append. -/
def mapSet (m : JsMap) (k : Option JVal) (v : Obj) : JsMap :=
  if m.any (fun p => p.1 = k) then
    m.map (fun p => if p.1 = k then (k, v) else p)
  else m ++ [(k, v)]

/-- Check `item[idField] != null` (loose inequality: excludes both `null` and
`undefined`). -/
def notNullish : Option JVal → Bool
  | none => false
  | some .null => false
  | some _ => true

/-- Accumulator of the `for (const item of incomingData)` loop. -/
structure PostLoopState where
  map : JsMap
  createdIds : List (Option JVal)
  updatedIds : List (Option JVal)
  conflicts : List Conflict

/-- The final item one bulk-loop iteration stores: the merge result (when
a record with this id exists) or the incoming item, with `updated_at`,
`created_at` and `client_id` forced afterwards
(`finalItem.updated_at = now; finalItem.created_at =
existingItem?.created_at || now; finalItem.client_id = clientId`). -/
def postFinal (strat : Strategy) (clientId : String) (now : Int)
    (existing : Option Obj) (item : Obj) : Obj :=
  match existing with
  | some ex =>
    setKey (setKey (setKey (mergeObjects ex item strat now).1
      "updated_at" (.num now))
      "created_at" (jsOrD (getv ex "created_at") (.num now)))
      "client_id" (.str clientId)
  | none =>
    setKey (setKey (setKey item
      "updated_at" (.num now))
      "created_at" (.num now))
      "client_id" (.str clientId)

/-- One iteration of the bulk-upsert loop: look the id up, record it as
created or updated, collect a merge conflict if any, and store the final
item in the map under its id. -/
def postStep (strat : Strategy) (clientId : String) (now : Int)
    (idField : String) (st : PostLoopState) (item : Obj) : PostLoopState :=
  let id := getv item idField
  let ex := mapGet st.map id
  { map := mapSet st.map id (postFinal strat clientId now ex item),
    createdIds := st.createdIds ++
      (match ex with | none => [id] | some _ => []),
    updatedIds := st.updatedIds ++
      (match ex with | some _ => [id] | none => []),
    conflicts := st.conflicts ++
      (match ex with
       | some e2 =>
         (match (mergeObjects e2 item strat now).2 with
          | some c => [c]
          | none => [])
       | none => []) }

/-- Outcome of a handler: HTTP status, JSON body, and the store passed to
`db.save` (`none` when the handler returns without saving). -/
structure PostOutcome where
  status : Int
  body : Obj
  save : Option StoreMetadata
deriving DecidableEq

/-- The 409 version-conflict response body. -/
def versionConflictBody (serverVersion : Int) (lastVersion : Int) : Obj :=
  [("success", .bool false),
   ("needsFullSync", .bool true),
   ("serverVersion", .num serverVersion),
   ("message", .str ("Version conflict. Client version "
      ++ toString lastVersion ++ " is outdated. Server is at "
      ++ toString serverVersion ++ "."))]

/-- Handler `POST /sync/:dbName/:storeName` on an already-loaded store `s`.
If `lastVersion < currentVersion` the handler returns 409 before touching
anything.  Otherwise it builds a `Map` of the records keyed by `idField`
(dropping records whose id is nullish), merges or inserts each incoming
item, performs a single `addVersionLog` with `operation = bulk`, stamps
the shared new version on every item written during this pass, and saves
`Array.from(map.values())`.
The source stamps the version by mutating the objects collected in
`processedItems`; a map entry holds the last item processed for its key
during this pass (an object also present in `processedItems`) exactly
when its key is one of the incoming ids, so the stamping is modelled by
rewriting those entries.  (The `sync:change` broadcast and the conflict
observability log are side effects not modelled.) -/
def postSync (s : StoreMetadata) (incoming : List Obj) (clientId : String)
    (strat : Strategy) (idField : String) (lastVersion : Int) (now : Int) :
    PostOutcome :=
  if lastVersion < s.currentVersion then
    { status := 409, body := versionConflictBody s.currentVersion lastVersion,
      save := none }
  else
    let map0 : JsMap :=
      (s.data.filter (fun item => notNullish (getv item idField))).foldl
        (fun m item => mapSet m (getv item idField) item) []
    let st := incoming.foldl (postStep strat clientId now idField)
      { map := map0, createdIds := [], updatedIds := [], conflicts := [] }
    let av := addVersionLog s .bulk (st.createdIds ++ st.updatedIds) clientId now
    let incomingIds := incoming.map (fun item => getv item idField)
    let newData := (st.map.map (fun p =>
      if p.1 ∈ incomingIds then (p.1, setKey p.2 "version" (.num av.2))
      else p)).map (fun p => p.2)
    let s2 := { av.1 with data := newData, updated_at := now }
    { status := 200,
      body := [("success", .bool true),
               ("synced", .num incoming.length),
               ("conflicts", .num st.conflicts.length),
               ("version", .num s2.currentVersion),
               ("timestamp", .num now)],
      save := some s2 }

/-! ### Single-record routes (PUT / PATCH / DELETE) -/

/-- Comparison `item.id == id` where `id` is the route parameter (a string); JS loose
equality converts the string to a number when the id is numeric.
Loose equality through `ToPrimitive` for array/object ids is outside the
modelled domain. -/
def jsLooseEqStr (v : JVal) (rid : String) : Bool :=
  match v with
  | .str s => s = rid
  | .num n => rid.toInt? = some n
  | .bool b => rid.toInt? = some (if b then 1 else 0)
  | .null => false
  | .arr _ => false
  | .obj _ => false

/-- Lookup `data.findIndex(item => item && item.id == id)` (store data holds no
nulls in the modelled domain). -/
def findIdxById (data : List Obj) (rid : String) : Option Nat :=
  data.findIdx? (fun item =>
    match getv item "id" with
    | some v => jsLooseEqStr v rid
    | none => false)

/-- Handler `PUT /sync/:dbName/:storeName/:id` on a loaded store: merge with the
existing record (field-level strategy) or accept the body as new, one
`addVersionLog` (`update`/`create`, the route id as single item id),
stamp bookkeeping via `addVersionedData`, store at the found index or
push.  This route always saves. -/
def putSync (s : StoreMetadata) (rid : String) (body : Obj)
    (clientId : String) (now : Int) : StoreMetadata :=
  match findIdxById s.data rid with
  | some i =>
    let existing := s.data.getD i []
    let mc := mergeObjects existing body .fieldLevelMerge now
    let av := addVersionLog s .update [some (.str rid)] clientId now
    let vd := addVersionedData mc.1 clientId av.2 now
    { av.1 with data := s.data.set i vd, updated_at := now }
  | none =>
    let av := addVersionLog s .create [some (.str rid)] clientId now
    let vd := addVersionedData body clientId av.2 now
    { av.1 with data := s.data ++ [vd], updated_at := now }

/-- Handler `PATCH /sync/:dbName/:storeName/:id`: like PUT but 404 (no save,
`none`) when the record is missing. -/
def patchSync (s : StoreMetadata) (rid : String) (body : Obj)
    (clientId : String) (now : Int) : Option StoreMetadata :=
  match findIdxById s.data rid with
  | none => none
  | some i =>
    let existing := s.data.getD i []
    let mc := mergeObjects existing body .fieldLevelMerge now
    let av := addVersionLog s .update [some (.str rid)] clientId now
    let vd := addVersionedData mc.1 clientId av.2 now
    some { av.1 with data := s.data.set i vd, updated_at := now }

/-- Handler `DELETE /sync/:dbName/:storeName/:id`: splice the record out, then
one `addVersionLog` with `operation = delete`; 404 (`none`) when the
record is missing. -/
def deleteSync (s : StoreMetadata) (rid : String) (clientId : String)
    (now : Int) : Option StoreMetadata :=
  match findIdxById s.data rid with
  | none => none
  | some i =>
    let s1 := { s with data := s.data.eraseIdx i }
    let av := addVersionLog s1 .delete [some (.str rid)] clientId now
    some { av.1 with updated_at := now }

/-! ### Differential read (`GET /sync/:dbName/:storeName/from/:version`) -/

/-- JavaScript `String(x)` for the modelled domain (array-valued ids,
whose conversion joins the elements, are outside the modelled domain). -/
def jsStringOf : Option JVal → String
  | none => "undefined"
  | some .null => "null"
  | some (.bool b) => if b then "true" else "false"
  | some (.num n) => toString n
  | some (.str s) => s
  | some (.arr _) => ""
  | some (.obj _) => "[object Object]"

/-- The record set returned by the differential read: filter the log for
entries with `version > fromVersion`, union their `itemIds` into a `Set`,
and keep the current records whose `String(item.id)` is in the set. -/
def changesSince (s : StoreMetadata) (fromVersion : Int) : List Obj :=
  let changedLogs := s.versionLog.filter (fun e => fromVersion < e.version)
  let changedIds := changedLogs.foldl
    (fun acc e => acc ++ e.itemIds) ([] : List (Option JVal))
  s.data.filter (fun item =>
    (some (.str (jsStringOf (getv item "id"))) : Option JVal) ∈ changedIds)

/-! ## Broadcast fan-out (`NotificationManager.broadcast`,
`src/websocket/stockManager.ts`) -/

/-- A registered connection; `sendOk` models whether `ws.send` succeeds or
throws for this connection during the current pass. -/
structure Conn where
  sendOk : Bool
deriving DecidableEq

/-- Exclusion test `excludeClientId && clientId === excludeClientId` (an empty exclude id
is falsy and excludes nobody). -/
def exMatches (ex : Option String) (cid : String) : Bool :=
  match ex with
  | some e => e ≠ "" && cid = e
  | none => false

/-- The `connections.forEach` pass: returns the client ids whose send
succeeded (in registry order) and the dead connections collected. -/
def broadcastPass (conns : List (String × Conn)) (ex : Option String) :
    List String × List String :=
  conns.foldl (fun acc p =>
    if exMatches ex p.1 then acc
    else if p.2.sendOk then (acc.1 ++ [p.1], acc.2)
    else (acc.1, acc.2 ++ [p.1])) ([], [])

/-- Result of `broadcast`: the returned `{success, sentTo}`, the message
serialized once (`JSON.stringify([event, data])`, modelled
unserialized), the ids the message was delivered to, and the registry
after the dead connections were removed. -/
structure BroadcastResult where
  success : Bool
  sentTo : Int
  message : JVal
  delivered : List String
  registry : List (String × Conn)

/-- Models `NotificationManager.broadcast(event, data, excludeClientId)`:
serialize once, attempt delivery to every registered connection except
the excluded one, catch send errors, and delete the dead connections
from the registry only after the pass completes.  Never throws. -/
def broadcast (conns : List (String × Conn)) (event : String)
    (payload : JVal) (ex : Option String) : BroadcastResult :=
  let msg : JVal := .arr (.cons (.str event) (.cons payload .nil))
  if conns.isEmpty then
    { success := true, sentTo := 0, message := msg, delivered := [],
      registry := conns }
  else
    let pass := broadcastPass conns ex
    { success := true, sentTo := pass.1.length, message := msg,
      delivered := pass.1,
      registry := conns.filter (fun p => ¬ pass.2.contains p.1) }

/-! ## Batch task endpoint (`POST /sync/tasks`,
`src/routes/newsyncRoute.ts`) -/

/-- A `SyncTask`; `storeName`/`action` use `""` for a missing (falsy)
value, `data` is `none` when absent. -/
structure SyncTask where
  id : String
  storeName : String
  action : String
  data : Option Obj

/-- The store operation a valid task performs through the external
`idb-manager` store (an out-of-scope persistence collaborator). -/
inductive TaskOp where
  | add (storeName : String) (d : Obj)
  | del (storeName : String) (idv : JVal)

/-- One iteration of the task loop body: the validation checks of the
source in order, then the store operation through the collaborator
`exec` (whose failure models a thrown/rejected database operation).
Messages are the source messages with the quoted field names unquoted. -/
def applyTask {σ : Type} (exec : σ → TaskOp → Except String σ) (st : σ)
    (t : SyncTask) : Except String σ :=
  match t.data with
  | none => .error ("Task " ++ t.id ++ " is missing data or data.id.")
  | some d =>
    match getv d "id" with
    | none => .error ("Task " ++ t.id ++ " is missing data or data.id.")
    | some idv =>
      if t.storeName = "" ∨ t.action = "" then
        .error ("Task " ++ t.id ++ " is missing storeName or action."
          ++ t.storeName)
      else if t.action = "create" ∨ t.action = "update" then
        exec st (.add t.storeName d)
      else if t.action = "delete" then
        exec st (.del t.storeName idv)
      else .error ("Unknown action received: " ++ t.action)

/-- The error message of a task outcome (`none` = the task succeeded). -/
def errOf {σ : Type} : Except String σ → Option String
  | .ok _ => none
  | .error e => some e

/-- The sequential task loop: on success push `task.id` to
`processedTaskIds`, on a caught error push `{id, error}` to
`failedTasks`, and always continue with the remaining tasks.
(The per-task `sync:change` broadcast is a side effect not modelled.) -/
def processTasks {σ : Type} (exec : σ → TaskOp → Except String σ) :
    σ → List SyncTask → σ × List String × List (String × String)
  | st, [] => (st, [], [])
  | st, t :: ts =>
    match applyTask exec st t with
    | .ok st2 =>
      let rest := processTasks exec st2 ts
      (rest.1, t.id :: rest.2.1, rest.2.2)
    | .error e =>
      let rest := processTasks exec st ts
      (rest.1, rest.2.1, (t.id, e) :: rest.2.2)

structure TasksResponse where
  status : Int
  success : Bool
  message : Option String
  processedTaskIds : List String
  failedTasks : List (String × String)

/-- Handler `POST /sync/tasks`: 400 when no tasks are provided, otherwise run the
loop and report `{success: true, processedTaskIds, failedTasks}`. -/
def postTasks {σ : Type} (exec : σ → TaskOp → Except String σ) (st : σ)
    (tasks : List SyncTask) : TasksResponse × σ :=
  if tasks.isEmpty then
    ({ status := 400, success := false, message := some "No tasks provided.",
       processedTaskIds := [], failedTasks := [] }, st)
  else
    let r := processTasks exec st tasks
    ({ status := 200, success := true, message := none,
       processedTaskIds := r.2.1, failedTasks := r.2.2 }, r.1)

/-! ## Specification-side notions -/

/-- The non-volatile (business) fields of an object. -/
def businessFields (o : Obj) : Obj :=
  o.filter (fun p => !volatileKeys.contains p.1)

/- `BizEq a b`: `a` and `b` have the same business content — they agree up
to changing volatile bookkeeping fields at any nesting level and up to
reordering object keys.  The `obj` constructor relates two objects whose
non-volatile fields (with pairwise distinct keys, as in any JavaScript
object) are a permutation of each other with pointwise `BizEq` values. -/
mutual

inductive BizEq : JVal → JVal → Prop where
  | refl (v : JVal) : BizEq v v
  | arr {xs ys : JArr} : BizEqArr xs ys → BizEq (.arr xs) (.arr ys)
  | obj {fs gs : JObj} {gs2 : Obj} :
      ((businessFields fs.toList).map (fun p => p.1)).Nodup →
      ((businessFields gs.toList).map (fun p => p.1)).Nodup →
      (businessFields gs.toList).Perm gs2 →
      BizEqFields (businessFields fs.toList) gs2 →
      BizEq (.obj fs) (.obj gs)

inductive BizEqArr : JArr → JArr → Prop where
  | nil : BizEqArr .nil .nil
  | cons {x y : JVal} {xs ys : JArr} :
      BizEq x y → BizEqArr xs ys → BizEqArr (.cons x xs) (.cons y ys)

inductive BizEqFields : Obj → Obj → Prop where
  | nil : BizEqFields [] []
  | cons {k : String} {v w : JVal} {fs gs : Obj} :
      BizEq v w → BizEqFields fs gs → BizEqFields ((k, v) :: fs) ((k, w) :: gs)

end

/-- The ledger invariant of a store: strictly increasing (hence unique)
log versions, every logged version at most `currentVersion`, and at most
1000 entries. -/
def storeInv (s : StoreMetadata) : Prop :=
  s.versionLog.Pairwise (fun a b => a.version < b.version) ∧
  (∀ e ∈ s.versionLog, e.version ≤ s.currentVersion) ∧
  s.versionLog.length ≤ 1000

/-- The value written by the `fieldLevelMerge` loop iteration that owns
key `j` (`mj` is the value the accumulated merge holds at `j`, which the
skipped branches keep). -/
def flmResolve (l : Obj) (lt rt : Int) (j : String) (rv : JVal)
    (mj : Option JVal) : Option JVal :=
  if j = "created_at" then some (mergeCreatedAt (getv l "created_at") rv)
  else if j = "id" then mj
  else if ¬ hasKey l j then some rv
  else if getv l j ≠ some rv then
    some (if rt ≥ lt then rv else ((getv l j).getD rv))
  else mj

/-- The arguments of one accepted mutating call, as seen by the ledger. -/
structure LedgerCall where
  operation : Operation
  itemIds : List (Option JVal)
  clientId : String
  now : Int

/-- A sequence of accepted mutating calls, each performing its single
ledger append. -/
def runLedger (s : StoreMetadata) (calls : List LedgerCall) : StoreMetadata :=
  calls.foldl
    (fun st c => (addVersionLog st c.operation c.itemIds c.clientId c.now).1) s

/-- Models `String(item.id)`, the string a record is looked up by in the
differential read. -/
def ridOf (r : Obj) : String := jsStringOf (getv r "id")

/-! ## Object-operation lemmas -/

theorem getv_nil (j : String) : getv [] j = none := rfl

theorem getv_cons (p : String × JVal) (ps : Obj) (j : String) :
    getv (p :: ps) j = if p.1 = j then some p.2 else getv ps j := by
  by_cases h : p.1 = j <;> simp [getv, List.find?_cons, h]

theorem hasKey_cons (p : String × JVal) (ps : Obj) (j : String) :
    hasKey (p :: ps) j = (p.1 = j || hasKey ps j) := by
  simp [hasKey]

theorem hasKey_iff_getv (o : Obj) (j : String) :
    hasKey o j = true ↔ (getv o j).isSome := by
  induction o with
  | nil => simp [hasKey, getv]
  | cons p ps ih =>
    by_cases h : p.1 = j <;> simp [hasKey_cons, getv_cons, h, ih]

theorem getv_eq_none_of_not_hasKey (o : Obj) (j : String)
    (h : ¬ hasKey o j = true) : getv o j = none := by
  cases hg : getv o j with
  | none => rfl
  | some v => exact absurd ((hasKey_iff_getv o j).mpr (by simp [hg])) h

theorem hasKey_of_getv (o : Obj) (j : String) (v : JVal)
    (h : getv o j = some v) : hasKey o j = true :=
  (hasKey_iff_getv o j).mpr (by simp [h])

theorem getv_map_replace (o : Obj) (k : String) (v : JVal) (j : String) :
    getv (o.map (fun p => if p.1 = k then (k, v) else p)) j
      = if j = k then (getv o k).map (fun _ => v) else getv o j := by
  induction o with
  | nil => simp [getv]
  | cons p ps ih =>
    by_cases hpk : p.1 = k
    · by_cases hjk : j = k
      · subst hjk; simp [getv_cons, hpk, ih]
      · simp [getv_cons, hpk, ih, hjk, Ne.symm hjk]
    · by_cases hpj : p.1 = j
      · have hjk : ¬ j = k := by rw [← hpj]; exact hpk
        simp [getv_cons, hpk, hpj, hjk]
      · simp [getv_cons, hpk, hpj, ih]

theorem getv_append (o1 o2 : Obj) (j : String) :
    getv (o1 ++ o2) j = if hasKey o1 j then getv o1 j else getv o2 j := by
  induction o1 with
  | nil => simp [hasKey, getv]
  | cons p ps ih =>
    by_cases h : p.1 = j <;> simp [getv_cons, hasKey_cons, h, ih]

/-- Full characterization of `setKey` behaviour under `getv`. -/
theorem getv_setKey (o : Obj) (k : String) (v : JVal) (j : String) :
    getv (setKey o k v) j = if j = k then some v else getv o j := by
  unfold setKey
  by_cases h : hasKey o k
  · rw [if_pos h, getv_map_replace]
    by_cases hjk : j = k
    · subst hjk
      have := (hasKey_iff_getv o j).mp h
      cases hg : getv o j with
      | none => rw [hg] at this; simp at this
      | some w => simp [hg]
    · simp [hjk]
  · rw [if_neg h, getv_append]
    by_cases hjk : j = k
    · subst hjk
      simp [h, getv_eq_none_of_not_hasKey o j h, getv_cons]
    · have hkj : ¬ k = j := fun hh => hjk hh.symm
      by_cases hko : hasKey o j
      · simp [hko, hjk]
      · simp [hko, getv_eq_none_of_not_hasKey o j hko, getv_cons, hjk, hkj,
          getv_nil]

theorem keys_setKey (o : Obj) (k : String) (v : JVal) :
    keys (setKey o k v) = if hasKey o k then keys o else keys o ++ [k] := by
  unfold setKey
  by_cases h : hasKey o k
  · rw [if_pos h, if_pos h]
    unfold keys
    rw [List.map_map]
    apply List.map_congr_left
    intro p _
    by_cases hpk : p.1 = k <;> simp [hpk]
  · simp [h, keys]

theorem mem_keys_iff_hasKey (o : Obj) (j : String) :
    j ∈ keys o ↔ hasKey o j = true := by
  unfold keys hasKey
  rw [List.any_eq_true]
  constructor
  · intro h
    rcases List.mem_map.mp h with ⟨p, hp, he⟩
    exact ⟨p, hp, by simp [he]⟩
  · intro ⟨p, hp, he⟩
    exact List.mem_map.mpr ⟨p, hp, by simpa using he⟩

theorem nodup_keys_setKey (o : Obj) (k : String) (v : JVal)
    (h : (keys o).Nodup) : (keys (setKey o k v)).Nodup := by
  rw [keys_setKey]
  by_cases hk : hasKey o k
  · simpa [hk] using h
  · have hkn : k ∉ keys o := fun hc => hk ((mem_keys_iff_hasKey o k).mp hc)
    rw [if_neg hk]
    refine List.Nodup.append h (List.nodup_singleton k) ?_
    intro a ha hb
    rw [List.mem_singleton] at hb
    exact hkn (hb ▸ ha)

/-- With pairwise-distinct keys, association lookup is invariant under
permutation. -/
theorem getv_perm (l1 l2 : Obj) (hp : l1.Perm l2)
    (hnd : (keys l1).Nodup) (j : String) : getv l1 j = getv l2 j := by
  induction hp with
  | nil => rfl
  | cons p _ ih =>
    have h0 : (keys _).Nodup := (List.nodup_cons.mp (by simpa [keys] using hnd)).2
    rw [getv_cons, getv_cons, ih (by simpa [keys] using h0)]
  | swap p q l =>
    have h0 : (q.1 :: p.1 :: (l.map (fun p => p.1))).Nodup := by
      have h1 := hnd
      rw [keys, List.map_cons, List.map_cons] at h1
      exact h1
    have hne : q.1 ≠ p.1 := fun he =>
      (List.nodup_cons.mp h0).1 (by rw [he]; exact List.mem_cons_self _ _)
    by_cases hq : q.1 = j
    · have hp1 : ¬ p.1 = j := fun hc => hne (hq.trans hc.symm)
      simp [getv_cons, hq, hp1]
    · simp [getv_cons, hq]
  | trans h1 _ ih1 ih2 =>
    have hmid := ((h1.map (fun p => p.1)).nodup_iff).mp (by simpa [keys] using hnd)
    rw [ih1 hnd, ih2 (by simpa [keys] using hmid)]

/-! ## Key-sort lemmas -/

theorem charListLe_total : ∀ x y : List Char,
    charListLe x y = true ∨ charListLe y x = true
  | [], _ => Or.inl rfl
  | _ :: _, [] => Or.inr rfl
  | c :: cs, d :: ds => by
    by_cases h1 : c.toNat < d.toNat
    · left; rw [charListLe, if_pos h1]
    · by_cases h2 : d.toNat < c.toNat
      · right; rw [charListLe, if_pos h2]
      · rcases charListLe_total cs ds with h | h
        · left; rw [charListLe, if_neg h1, if_neg h2]; exact h
        · right; rw [charListLe, if_neg h2, if_neg h1]; exact h

theorem charListLe_antisymm : ∀ x y : List Char,
    charListLe x y = true → charListLe y x = true → x = y
  | [], [], _, _ => rfl
  | [], _ :: _, _, h2 => by rw [charListLe] at h2; cases h2
  | _ :: _, [], h1, _ => by rw [charListLe] at h1; cases h1
  | c :: cs, d :: ds, h1, h2 => by
    by_cases hcd : c.toNat < d.toNat
    · rw [charListLe, if_neg (by omega), if_pos hcd] at h2; cases h2
    · by_cases hdc : d.toNat < c.toNat
      · rw [charListLe, if_neg (by omega), if_pos hdc] at h1; cases h1
      · have h3 : c.toNat = d.toNat := by omega
        have hce : c = d := Char.ext (UInt32.ext h3)
        rw [charListLe, if_neg hcd, if_neg hdc] at h1
        rw [charListLe, if_neg hdc, if_neg hcd] at h2
        rw [hce, charListLe_antisymm cs ds h1 h2]

theorem charListLe_trans : ∀ x y z : List Char,
    charListLe x y = true → charListLe y z = true → charListLe x z = true
  | [], _, _, _, _ => rfl
  | _ :: _, [], _, h1, _ => by rw [charListLe] at h1; cases h1
  | _ :: _, _ :: _, [], _, h2 => by rw [charListLe] at h2; cases h2
  | c :: cs, d :: ds, e :: es, h1, h2 => by
    rw [charListLe] at h1 h2
    rw [charListLe]
    by_cases hdc : d.toNat < c.toNat
    · rw [if_neg (by omega), if_pos hdc] at h1; cases h1
    · by_cases hed : e.toNat < d.toNat
      · rw [if_neg (by omega), if_pos hed] at h2; cases h2
      · by_cases hce : c.toNat < e.toNat
        · rw [if_pos hce]
        · have hc : ¬ c.toNat < d.toNat := by omega
          have hd : ¬ d.toNat < e.toNat := by omega
          rw [if_neg hc, if_neg hdc] at h1
          rw [if_neg hd, if_neg hed] at h2
          rw [if_neg hce, if_neg (by omega)]
          exact charListLe_trans cs ds es h1 h2

theorem strLe_total (a b : String) : strLe a b = true ∨ strLe b a = true :=
  charListLe_total a.data b.data

theorem strLe_antisymm (a b : String) (h1 : strLe a b = true)
    (h2 : strLe b a = true) : a = b :=
  String.ext (charListLe_antisymm a.data b.data h1 h2)

theorem strLe_trans (a b c : String) (h1 : strLe a b = true)
    (h2 : strLe b c = true) : strLe a c = true :=
  charListLe_trans a.data b.data c.data h1 h2

theorem insertSorted_perm (p : String × JVal) (l : Obj) :
    (insertSorted p l).Perm (p :: l) := by
  induction l with
  | nil => exact List.Perm.refl _
  | cons q qs ih =>
    rw [insertSorted]
    by_cases h : strLe p.1 q.1
    · rw [if_pos h]
    · rw [if_neg h]
      exact ((ih.cons q).trans (List.Perm.swap p q qs))

theorem sortFields_perm (l : Obj) : (sortFields l).Perm l := by
  induction l with
  | nil => exact List.Perm.refl _
  | cons p ps ih =>
    exact (insertSorted_perm p (sortFields ps)).trans (ih.cons p)

theorem insertSorted_sorted (p : String × JVal) (l : Obj)
    (h : l.Pairwise (fun a b => strLe a.1 b.1 = true)) :
    (insertSorted p l).Pairwise (fun a b => strLe a.1 b.1 = true) := by
  induction l with
  | nil => simp [insertSorted]
  | cons q qs ih =>
    rw [insertSorted]
    by_cases hle : strLe p.1 q.1
    · rw [if_pos hle]
      refine List.Pairwise.cons ?_ h
      intro r hr
      rcases List.mem_cons.mp hr with he | ht
      · rw [he]; exact hle
      · exact strLe_trans _ _ _ hle ((List.pairwise_cons.mp h).1 r ht)
    · rw [if_neg hle]
      have hqp : strLe q.1 p.1 = true := by
        rcases strLe_total p.1 q.1 with h1 | h1
        · exact absurd h1 hle
        · exact h1
      refine List.Pairwise.cons ?_ (ih (List.pairwise_cons.mp h).2)
      intro r hr
      rcases List.mem_cons.mp ((insertSorted_perm p qs).mem_iff.mp hr) with
        hrp | hrq
      · rw [hrp]; exact hqp
      · exact (List.pairwise_cons.mp h).1 r hrq

theorem sortFields_sorted (l : Obj) :
    (sortFields l).Pairwise (fun a b => strLe a.1 b.1 = true) := by
  induction l with
  | nil => simp [sortFields]
  | cons p ps ih => exact insertSorted_sorted p (sortFields ps) ih

/-- Two key-sorted field lists that are permutations of each other and
have pairwise-distinct keys are equal. -/
theorem sorted_nodup_perm_eq (l1 l2 : Obj) (hp : l1.Perm l2)
    (hs1 : l1.Pairwise (fun a b => strLe a.1 b.1 = true))
    (hs2 : l2.Pairwise (fun a b => strLe a.1 b.1 = true))
    (hnd : (keys l1).Nodup) : l1 = l2 := by
  have hnd2 : (keys l2).Nodup := by
    rw [keys]
    exact ((hp.map (fun p => p.1)).nodup_iff).mp (by rw [keys] at hnd; exact hnd)
  have hne1 : l1.Pairwise (fun a b : String × JVal => a.1 ≠ b.1) := by
    rw [keys] at hnd
    exact (List.pairwise_map.mp hnd)
  have hne2 : l2.Pairwise (fun a b : String × JVal => a.1 ≠ b.1) := by
    rw [keys] at hnd2
    exact (List.pairwise_map.mp hnd2)
  have hlt1 : l1.Pairwise
      (fun a b : String × JVal => strLe a.1 b.1 = true ∧ a.1 ≠ b.1) :=
    hs1.and hne1
  have hlt2 : l2.Pairwise
      (fun a b : String × JVal => strLe a.1 b.1 = true ∧ a.1 ≠ b.1) :=
    hs2.and hne2
  haveI : IsAntisymm (String × JVal)
      (fun a b => strLe a.1 b.1 = true ∧ a.1 ≠ b.1) :=
    ⟨fun a b h1 h2 => absurd (strLe_antisymm _ _ h1.1 h2.1) h1.2⟩
  exact List.eq_of_perm_of_sorted hp hlt1 hlt2

/-! ## Normalizer and fingerprint lemmas -/

theorem mem_volatile_iff (k : String) :
    volatileKeys.contains k = true ↔ k ∈ volatileKeys :=
  List.elem_iff

theorem mem_volatile (k : String) (h : volatileKeys.contains k = true) :
    k ∈ volatileKeys :=
  (mem_volatile_iff k).mp h

theorem not_mem_volatile (k : String)
    (h : ¬ volatileKeys.contains k = true) : k ∉ volatileKeys :=
  fun hm => h ((mem_volatile_iff k).mpr hm)

theorem toList_toJObj (o : Obj) : JObj.toList (List.toJObj o) = o := by
  induction o with
  | nil => rfl
  | cons p ps ih =>
    cases p
    rw [List.toJObj, JObj.toList, ih]

theorem toJObj_toList : ∀ x : JObj, List.toJObj (JObj.toList x) = x
  | .nil => rfl
  | .cons k v tl => by rw [JObj.toList, List.toJObj, toJObj_toList tl]

theorem JObj.toList_inj (a b : JObj) (h : JObj.toList a = JObj.toList b) :
    a = b := by
  rw [← toJObj_toList a, ← toJObj_toList b, h]

theorem toList_insertKV (k : String) (v : JVal) : ∀ o : JObj,
    JObj.toList (JObj.insertKV k v o) = insertSorted (k, v) (JObj.toList o)
  | .nil => rfl
  | .cons k2 v2 tl => by
    rw [JObj.insertKV]
    by_cases h : strLe k k2
    · rw [if_pos h]
      simp only [JObj.toList, insertSorted]
      rw [if_pos h]
    · rw [if_neg h]
      simp only [JObj.toList, insertSorted]
      rw [if_neg h, toList_insertKV k v tl]

theorem toList_sortKeys : ∀ o : JObj,
    JObj.toList (JObj.sortKeys o) = sortFields (JObj.toList o)
  | .nil => rfl
  | .cons k v tl => by
    rw [JObj.sortKeys, JObj.toList, sortFields, toList_insertKV,
      toList_sortKeys tl]

theorem toList_normalizeFields : ∀ o : JObj,
    JObj.toList (normalizeFields o)
      = (businessFields (JObj.toList o)).map
          (fun p => (p.1, normalizeForHash p.2))
  | .nil => rfl
  | .cons k v tl => by
    rw [normalizeFields, JObj.toList, businessFields, List.filter_cons]
    by_cases h : volatileKeys.contains k
    · rw [if_pos h, if_neg (by simp [mem_volatile k h]),
        toList_normalizeFields tl, businessFields]
    · rw [if_neg h, if_pos (by simp [not_mem_volatile k h]), JObj.toList,
        toList_normalizeFields tl, businessFields, List.map_cons]

theorem getv_map_norm (o : Obj) (j : String) :
    getv (o.map (fun p => (p.1, normalizeForHash p.2))) j
      = (getv o j).map normalizeForHash := by
  induction o with
  | nil => simp [getv]
  | cons p ps ih =>
    by_cases h : p.1 = j <;> simp [getv_cons, h, ih]

theorem keys_map_norm (o : Obj) :
    keys (o.map (fun p => (p.1, normalizeForHash p.2))) = keys o := by
  simp [keys, List.map_map]

theorem getv_businessFields (o : Obj) (j : String)
    (hj : j ∉ volatileKeys) : getv (businessFields o) j = getv o j := by
  rw [businessFields]
  induction o with
  | nil => rfl
  | cons p ps ih =>
    rw [List.filter_cons]
    by_cases hv : volatileKeys.contains p.1
    · have hpj : ¬ p.1 = j := fun he =>
        hj (he ▸ (mem_volatile_iff p.1).mp hv)
      rw [if_neg (by simp [mem_volatile p.1 hv]), getv_cons, if_neg hpj]
      exact ih
    · rw [if_pos (by simp [not_mem_volatile p.1 hv]), getv_cons, getv_cons]
      by_cases hpj : p.1 = j
      · simp [hpj]
      · simpa [hpj] using ih

theorem keys_businessFields_sublist (o : Obj) :
    (keys (businessFields o)).Sublist (keys o) := by
  rw [keys, keys, businessFields]
  exact (List.filter_sublist o).map (fun p => p.1)

theorem nodup_keys_businessFields (o : Obj) (h : (keys o).Nodup) :
    (keys (businessFields o)).Nodup :=
  (keys_businessFields_sublist o).nodup h

/-- The canonical field list underlying a record fingerprint. -/
theorem fingerprint_toList (o : Obj) :
    fingerprint o = .obj (List.toJObj (sortFields
      ((businessFields o).map (fun p => (p.1, normalizeForHash p.2))))) := by
  rw [fingerprint, normalizeForHash]
  congr 1
  apply JObj.toList_inj
  rw [toList_sortKeys, toList_normalizeFields, toList_toJObj, toList_toJObj]

/-- Equal fingerprints force equal (normalized) values at every
non-volatile key, provided the records have pairwise-distinct keys. -/
theorem fingerprint_getv (l r : Obj) (hf : fingerprint l = fingerprint r)
    (hndl : (keys l).Nodup) (hndr : (keys r).Nodup) (j : String)
    (hj : j ∉ volatileKeys) :
    (getv l j).map normalizeForHash = (getv r j).map normalizeForHash := by
  rw [fingerprint_toList, fingerprint_toList] at hf
  have hs : sortFields ((businessFields l).map (fun p => (p.1, normalizeForHash p.2)))
      = sortFields ((businessFields r).map (fun p => (p.1, normalizeForHash p.2))) := by
    have := hf
    injection this with h1
    have := congrArg JObj.toList h1
    rwa [toList_toJObj, toList_toJObj] at this
  have hnl : (keys ((businessFields l).map
      (fun p => (p.1, normalizeForHash p.2)))).Nodup := by
    rw [keys_map_norm]
    exact nodup_keys_businessFields l hndl
  have h1 : getv ((businessFields l).map (fun p => (p.1, normalizeForHash p.2))) j
      = getv ((businessFields r).map (fun p => (p.1, normalizeForHash p.2))) j := by
    rw [getv_perm _ _ (sortFields_perm _).symm hnl j, hs,
      ← getv_perm _ _ (sortFields_perm _).symm ?_ j]
    rw [keys_map_norm]
    exact nodup_keys_businessFields r hndr
  rw [getv_map_norm, getv_map_norm, getv_businessFields _ _ hj,
    getv_businessFields _ _ hj] at h1
  exact h1

theorem businessFields_map_replace (o : Obj) (k : String) (v : JVal)
    (hk : k ∈ volatileKeys) :
    businessFields (o.map (fun p => if p.1 = k then (k, v) else p))
      = businessFields o := by
  rw [businessFields, businessFields]
  induction o with
  | nil => rfl
  | cons p ps ih =>
    rw [List.map_cons, List.filter_cons]
    by_cases hp : p.1 = k
    · have h1 : volatileKeys.contains p.1 = true := by
        rw [hp]; exact (mem_volatile_iff k).mpr hk
      rw [if_pos hp, List.filter_cons,
        if_neg (by simp [hk]), if_neg (by simp [mem_volatile p.1 h1])]
      exact ih
    · rw [if_neg hp, List.filter_cons]
      by_cases hv : volatileKeys.contains p.1
      · rw [if_neg (by simp [mem_volatile p.1 hv]),
          if_neg (by simp [mem_volatile p.1 hv])]
        exact ih
      · rw [if_pos (by simp [not_mem_volatile p.1 hv]),
          if_pos (by simp [not_mem_volatile p.1 hv]), ih]

theorem businessFields_setKey_volatile (o : Obj) (k : String) (v : JVal)
    (hk : k ∈ volatileKeys) :
    businessFields (setKey o k v) = businessFields o := by
  unfold setKey
  by_cases h : hasKey o k
  · rw [if_pos h]
    exact businessFields_map_replace o k v hk
  · rw [if_neg h, businessFields, List.filter_append, businessFields]
    have : List.filter (fun p => !volatileKeys.contains p.1) [(k, v)] = [] := by
      simp [hk]
    rw [this, List.append_nil]

/-- Setting a volatile bookkeeping key never changes the fingerprint. -/
theorem fingerprint_setKey_volatile (o : Obj) (k : String) (v : JVal)
    (hk : k ∈ volatileKeys) : fingerprint (setKey o k v) = fingerprint o := by
  rw [fingerprint_toList, fingerprint_toList,
    businessFields_setKey_volatile o k v hk]

/-! ## Field-level-merge characterization -/

theorem getv_decomp (o : Obj) (j : String) (rv : JVal)
    (h : getv o j = some rv) :
    ∃ pre post, o = pre ++ (j, rv) :: post ∧ ∀ kv ∈ pre, kv.1 ≠ j := by
  induction o with
  | nil => rw [getv_nil] at h; cases h
  | cons p ps ih =>
    rw [getv_cons] at h
    by_cases hp : p.1 = j
    · rw [if_pos hp] at h
      injection h with h2
      refine ⟨[], ps, ?_, by simp⟩
      rw [List.nil_append]
      have : p = (j, rv) := Prod.ext hp h2
      rw [this]
    · rw [if_neg hp] at h
      rcases ih h with ⟨pre, post, he, hne⟩
      exact ⟨p :: pre, post, by rw [he, List.cons_append],
        fun kv hkv => by
          rcases List.mem_cons.mp hkv with h1 | h1
          · rw [h1]; exact hp
          · exact hne kv h1⟩

theorem getv_flmStep_ne (l : Obj) (lt rt : Int) (m : Obj)
    (kv : String × JVal) (j : String) (hne : kv.1 ≠ j) :
    getv (flmStep l lt rt m kv) j = getv m j := by
  rw [flmStep]
  by_cases h1 : kv.1 = "created_at"
  · rw [if_pos h1, getv_setKey, if_neg (fun he => hne (h1.trans he.symm))]
  · rw [if_neg h1]
    by_cases h2 : kv.1 = "id"
    · rw [if_pos h2]
    · rw [if_neg h2]
      by_cases h3 : ¬ hasKey l kv.1
      · rw [if_pos h3, getv_setKey, if_neg (fun he => hne he.symm)]
      · rw [if_neg h3]
        by_cases h4 : getv l kv.1 ≠ some kv.2
        · rw [if_pos h4, getv_setKey, if_neg (fun he => hne he.symm)]
        · rw [if_neg h4]

theorem getv_foldl_flm_ne (l : Obj) (lt rt : Int) (rest : List (String × JVal))
    (m : Obj) (j : String) (hj : ∀ kv ∈ rest, kv.1 ≠ j) :
    getv (rest.foldl (flmStep l lt rt) m) j = getv m j := by
  induction rest generalizing m with
  | nil => rfl
  | cons kv rs ih =>
    rw [List.foldl_cons,
      ih (flmStep l lt rt m kv) (fun x hx => hj x (List.mem_cons_of_mem kv hx)),
      getv_flmStep_ne l lt rt m kv j (hj kv (List.mem_cons_self kv rs))]

theorem getv_flmStep_eq (l : Obj) (lt rt : Int) (m : Obj) (j : String)
    (rv : JVal) :
    getv (flmStep l lt rt m (j, rv)) j = flmResolve l lt rt j rv (getv m j) := by
  rw [flmStep, flmResolve]
  by_cases h1 : j = "created_at"
  · rw [if_pos h1, if_pos h1, getv_setKey, if_pos h1]
  · rw [if_neg h1, if_neg h1]
    by_cases h2 : j = "id"
    · rw [if_pos h2, if_pos h2]
    · rw [if_neg h2, if_neg h2]
      by_cases h3 : ¬ hasKey l j
      · rw [if_pos h3, if_pos h3, getv_setKey, if_pos rfl]
      · rw [if_neg h3, if_neg h3]
        by_cases h4 : getv l j ≠ some rv
        · rw [if_pos h4, if_pos h4, getv_setKey, if_pos rfl]
        · rw [if_neg h4, if_neg h4]

/-- The `getv` characterization of `fieldLevelMerge` for a remote object with
pairwise-distinct keys. -/
theorem getv_fieldLevelMerge (l r : Obj) (lt rt : Int) (j : String)
    (hnd : (keys r).Nodup) :
    getv (fieldLevelMerge l r lt rt) j =
      match getv r j with
      | none => getv l j
      | some rv => flmResolve l lt rt j rv (getv l j) := by
  cases hr : getv r j with
  | none =>
    have hj : ∀ kv ∈ r, kv.1 ≠ j := by
      intro kv hkv he
      have h1 : hasKey r j = true := by
        rw [hasKey, List.any_eq_true]
        exact ⟨kv, hkv, by simp [he]⟩
      have h2 := (hasKey_iff_getv r j).mp h1
      rw [hr] at h2
      simp at h2
    exact getv_foldl_flm_ne l lt rt r l j hj
  | some rv =>
    rcases getv_decomp r j rv hr with ⟨pre, post, he, hpre⟩
    have hpost : ∀ kv ∈ post, kv.1 ≠ j := by
      have hnd2 : (keys pre ++ j :: keys post).Nodup := by
        rw [he, keys] at hnd
        simpa [keys] using hnd
      have hnd3 : (j :: keys post).Nodup :=
        hnd2.sublist (List.sublist_append_right _ _)
      intro kv hkv he2
      exact (List.nodup_cons.mp hnd3).1
        (he2 ▸ List.mem_map.mpr ⟨kv, hkv, rfl⟩)
    rw [fieldLevelMerge, he, List.foldl_append, List.foldl_cons,
      getv_foldl_flm_ne l lt rt post _ j hpost, getv_flmStep_eq,
      getv_foldl_flm_ne l lt rt pre l j hpre]

theorem nodup_keys_flmStep (l : Obj) (lt rt : Int) (m : Obj)
    (kv : String × JVal) (h : (keys m).Nodup) :
    (keys (flmStep l lt rt m kv)).Nodup := by
  rw [flmStep]
  by_cases h1 : kv.1 = "created_at"
  · rw [if_pos h1]; exact nodup_keys_setKey _ _ _ h
  · rw [if_neg h1]
    by_cases h2 : kv.1 = "id"
    · rw [if_pos h2]; exact h
    · rw [if_neg h2]
      by_cases h3 : ¬ hasKey l kv.1
      · rw [if_pos h3]; exact nodup_keys_setKey _ _ _ h
      · rw [if_neg h3]
        by_cases h4 : getv l kv.1 ≠ some kv.2
        · rw [if_pos h4]; exact nodup_keys_setKey _ _ _ h
        · rw [if_neg h4]; exact h

theorem nodup_keys_foldl_flm (l : Obj) (lt rt : Int)
    (rest : List (String × JVal)) :
    ∀ m : Obj, (keys m).Nodup →
      (keys (rest.foldl (flmStep l lt rt) m)).Nodup := by
  induction rest with
  | nil => exact fun m h => h
  | cons kv rs ih =>
    intro m h
    rw [List.foldl_cons]
    exact ih _ (nodup_keys_flmStep l lt rt m kv h)

theorem nodup_keys_fieldLevelMerge (l r : Obj) (lt rt : Int)
    (h : (keys l).Nodup) : (keys (fieldLevelMerge l r lt rt)).Nodup :=
  nodup_keys_foldl_flm l lt rt r l h

theorem hasKey_fieldLevelMerge_iff (l r : Obj) (lt rt : Int) (j : String)
    (hnd : (keys r).Nodup) :
    hasKey (fieldLevelMerge l r lt rt) j = true ↔
      (hasKey l j = true ∨ (hasKey r j = true ∧ j ≠ "id")) := by
  rw [hasKey_iff_getv, getv_fieldLevelMerge l r lt rt j hnd]
  cases hgr : getv r j with
  | none =>
    have hfr : ¬ hasKey r j = true := by
      intro hc
      have := (hasKey_iff_getv r j).mp hc
      rw [hgr] at this
      simp at this
    simp [hfr, ← hasKey_iff_getv]
  | some rv =>
    have hr : hasKey r j = true := hasKey_of_getv r j rv hgr
    show (flmResolve l lt rt j rv (getv l j)).isSome = true ↔ _
    rw [flmResolve]
    by_cases h1 : j = "created_at"
    · subst h1
      simp [hr, show ("created_at" : String) ≠ "id" by decide]
    · rw [if_neg h1]
      by_cases h2 : j = "id"
      · simp [h2, ← hasKey_iff_getv]
      · rw [if_neg h2]
        by_cases h3 : ¬ hasKey l j
        · simp [h3, hr, h2]
        · rw [if_neg h3]
          rw [not_not] at h3
          by_cases h4 : getv l j ≠ some rv
          · simp [h4, h3, hr, h2]
          · rw [if_neg h4]
            simp [← hasKey_iff_getv, h3, hr, h2]

/-! ## Conflict-report lemmas -/

theorem mem_resolvedFields_keys (l r merged : Obj) (lt rt : Int)
    (k : String) :
    k ∈ (resolvedFieldsOf l r merged lt rt).map (fun p => p.1) ↔
      (k ∈ keys merged ∧ hasKey r k = true ∧ getv l k ≠ getv r k) := by
  rw [resolvedFieldsOf]
  constructor
  · intro h
    rcases List.mem_map.mp h with ⟨p, hp, hk⟩
    rcases List.mem_filterMap.mp hp with ⟨j, hj, hfj⟩
    by_cases hc : hasKey r j ∧ getv l j ≠ getv r j
    · rw [if_pos hc] at hfj
      injection hfj with h1
      have hj1 : p.1 = j := by rw [← h1]
      rw [← hk, hj1]
      exact ⟨hj, hc⟩
    · rw [if_neg hc] at hfj
      cases hfj
  · intro ⟨h1, h2, h3⟩
    refine List.mem_map.mpr ⟨(k,
      { localVal := getv l k, remoteVal := getv r k, resolved := getv merged k,
        winner := if rt ≥ lt then "remote" else "local" }), ?_, rfl⟩
    exact List.mem_filterMap.mpr ⟨k, h1, by rw [if_pos ⟨h2, h3⟩]⟩

theorem mem_resolvedFields (l r merged : Obj) (lt rt : Int) (k : String)
    (hk : k ∈ keys merged) (hr : hasKey r k = true)
    (hne : getv l k ≠ getv r k) :
    ((k, { localVal := getv l k, remoteVal := getv r k,
           resolved := getv merged k,
           winner := if rt ≥ lt then "remote" else "local" })
        : String × ConflictEntry)
      ∈ resolvedFieldsOf l r merged lt rt :=
  List.mem_filterMap.mpr ⟨k, hk, by rw [if_pos ⟨hr, hne⟩]⟩

/-! ## mergeObjects branch lemmas -/

theorem mergeObjects_hash_eq (l r : Obj) (strat : Strategy) (now : Int)
    (hf : fingerprint l = fingerprint r) :
    mergeObjects l r strat now =
      (setKeyU l "updated_at"
        (if effTime r > effTime l then getv r "updated_at"
         else getv l "updated_at"), none) := by
  simp only [mergeObjects]
  rw [if_pos hf]

theorem mergeObjects_flm (l r : Obj) (now : Int)
    (hf : fingerprint l ≠ fingerprint r) :
    mergeObjects l r .fieldLevelMerge now =
      (setKey (fieldLevelMerge l r (effTime l) (effTime r))
         "updated_at" (.num now),
       if resolvedFieldsOf l r (fieldLevelMerge l r (effTime l) (effTime r))
            (effTime l) (effTime r) ≠ [] then
         some { id := jsOr (getv l "id") (getv r "id"),
                resolvedFields := resolvedFieldsOf l r
                  (fieldLevelMerge l r (effTime l) (effTime r))
                  (effTime l) (effTime r),
                timestamp := now }
       else none) := by
  simp only [mergeObjects]
  rw [if_neg hf]

/-! ## Effective-timestamp lemmas -/

theorem effTime_of_updated (o : Obj) (a : Int)
    (h : getv o "updated_at" = some (.num a)) (ha : a ≠ 0) :
    effTime o = a := by
  rw [effTime, effVal, h, jsOrD]
  rw [if_pos (by simp [truthy, ha])]
  rfl

theorem effTime_of_missing (o : Obj)
    (h1 : ¬ hasKey o "updated_at" = true)
    (h2 : ¬ hasKey o "created_at" = true) : effTime o = 0 := by
  rw [effTime, effVal, getv_eq_none_of_not_hasKey o _ h1,
    getv_eq_none_of_not_hasKey o _ h2]
  rfl

/-! ## Business equality and the fingerprint -/

theorem bizEq_norm (a b : JVal) (h : BizEq a b) :
    normalizeForHash a = normalizeForHash b := by
  refine @BizEq.rec
    (fun a b _ => normalizeForHash a = normalizeForHash b)
    (fun xs ys _ => normalizeArr xs = normalizeArr ys)
    (fun fs gs _ => fs.map (fun p => (p.1, normalizeForHash p.2))
      = gs.map (fun p => (p.1, normalizeForHash p.2)))
    (fun _ => rfl) ?_ ?_ rfl ?_ rfl ?_ a b h
  · intro xs ys _ ih
    rw [normalizeForHash, normalizeForHash, ih]
  · intro fs gs gs2 hnd1 _ hperm _ ih
    rw [normalizeForHash, normalizeForHash]
    congr 1
    apply JObj.toList_inj
    rw [toList_sortKeys, toList_sortKeys, toList_normalizeFields,
      toList_normalizeFields]
    have hAB : ((businessFields (JObj.toList fs)).map
          (fun p => (p.1, normalizeForHash p.2))).Perm
        ((businessFields (JObj.toList gs)).map
          (fun p => (p.1, normalizeForHash p.2))) := by
      rw [ih]
      exact (hperm.map (fun p => (p.1, normalizeForHash p.2))).symm
    have hndA : (keys ((businessFields (JObj.toList fs)).map
        (fun p => (p.1, normalizeForHash p.2)))).Nodup := by
      rw [keys_map_norm]
      exact hnd1
    apply sorted_nodup_perm_eq
    · exact ((sortFields_perm _).trans hAB).trans (sortFields_perm _).symm
    · exact sortFields_sorted _
    · exact sortFields_sorted _
    · rw [keys]
      exact (((sortFields_perm _).map (fun p => p.1)).nodup_iff).mpr
        (by rw [keys] at hndA; exact hndA)
  · intro x y xs ys _ _ ih1 ih2
    rw [normalizeArr, normalizeArr, ih1, ih2]
  · intro k v w fs gs _ _ ih1 ih2
    simp only [List.map_cons]
    rw [ih1, ih2]

/-! ## Ledger lemmas -/

theorem addVersionLog_cv (s : StoreMetadata) (op : Operation)
    (ids : List (Option JVal)) (cid : String) (now : Int) :
    (addVersionLog s op ids cid now).1.currentVersion
      = s.currentVersion + 1 := rfl

theorem addVersionLog_ret (s : StoreMetadata) (op : Operation)
    (ids : List (Option JVal)) (cid : String) (now : Int) :
    (addVersionLog s op ids cid now).2 = s.currentVersion + 1 := rfl

theorem addVersionLog_data (s : StoreMetadata) (op : Operation)
    (ids : List (Option JVal)) (cid : String) (now : Int) :
    (addVersionLog s op ids cid now).1.data = s.data := rfl

theorem addVersionLog_log_of_le (s : StoreMetadata) (op : Operation)
    (ids : List (Option JVal)) (cid : String) (now : Int)
    (h : s.versionLog.length + 1 ≤ 1000) :
    (addVersionLog s op ids cid now).1.versionLog
      = s.versionLog ++
        [({ version := s.currentVersion + 1, timestamp := now,
            operation := op, itemIds := ids, clientId := cid }
          : VersionLogEntry)] := by
  simp only [addVersionLog]
  rw [if_neg (by rw [List.length_append]; simp; omega)]

theorem addVersionLog_log_trunc (s : StoreMetadata) (op : Operation)
    (ids : List (Option JVal)) (cid : String) (now : Int)
    (h : s.versionLog.length + 1 > 1000) :
    (addVersionLog s op ids cid now).1.versionLog
      = List.drop (s.versionLog.length + 1 - 500)
          (s.versionLog ++
            [({ version := s.currentVersion + 1, timestamp := now,
                operation := op, itemIds := ids, clientId := cid }
              : VersionLogEntry)]) := by
  simp only [addVersionLog]
  rw [if_pos (by rw [List.length_append]; simp; omega), List.length_append]
  simp

theorem storeInv_addVersionLog (s : StoreMetadata) (op : Operation)
    (ids : List (Option JVal)) (cid : String) (now : Int)
    (h : storeInv s) : storeInv (addVersionLog s op ids cid now).1 := by
  obtain ⟨hpw, hle, hlen⟩ := h
  have hpw1 : (s.versionLog ++
      [({ version := s.currentVersion + 1, timestamp := now,
          operation := op, itemIds := ids, clientId := cid }
        : VersionLogEntry)]).Pairwise
        (fun a b => a.version < b.version) := by
    rw [List.pairwise_append]
    refine ⟨hpw, List.pairwise_singleton _ _, ?_⟩
    intro a ha b hb
    rw [List.mem_singleton] at hb
    rw [hb]
    exact lt_of_le_of_lt (hle a ha)
      (show s.currentVersion < s.currentVersion + 1 by omega)
  have hle1 : ∀ e ∈ s.versionLog ++
      [({ version := s.currentVersion + 1, timestamp := now,
          operation := op, itemIds := ids, clientId := cid }
        : VersionLogEntry)],
      e.version ≤ s.currentVersion + 1 := by
    intro e he
    rcases List.mem_append.mp he with h1 | h1
    · exact le_trans (hle e h1) (by omega)
    · rw [List.mem_singleton] at h1
      rw [h1]
  by_cases hc : s.versionLog.length + 1 > 1000
  · have hlog := addVersionLog_log_trunc s op ids cid now hc
    refine ⟨?_, ?_, ?_⟩
    · rw [hlog]
      exact hpw1.sublist (List.drop_sublist _ _)
    · intro e he
      rw [hlog] at he
      rw [addVersionLog_cv]
      exact hle1 e (List.mem_of_mem_drop he)
    · rw [hlog, List.length_drop, List.length_append]
      simp
      omega
  · have hlog := addVersionLog_log_of_le s op ids cid now (by omega)
    refine ⟨?_, ?_, ?_⟩
    · rw [hlog]
      exact hpw1
    · intro e he
      rw [hlog] at he
      rw [addVersionLog_cv]
      exact hle1 e he
    · rw [hlog, List.length_append]
      simp
      omega

theorem runLedger_accounting (calls : List LedgerCall) :
    ∀ s : StoreMetadata, s.versionLog.length + calls.length ≤ 1000 →
      (runLedger s calls).currentVersion = s.currentVersion + calls.length ∧
      (runLedger s calls).versionLog.length
        = s.versionLog.length + calls.length := by
  induction calls with
  | nil => exact fun s _ => ⟨by simp [runLedger], by simp [runLedger]⟩
  | cons c cs ih =>
    intro s hlen
    have hstep : ((addVersionLog s c.operation c.itemIds c.clientId
        c.now).1.versionLog).length = s.versionLog.length + 1 := by
      rw [addVersionLog_log_of_le _ _ _ _ _ (by simp at hlen; omega),
        List.length_append]
      simp
    have hrec := ih (addVersionLog s c.operation c.itemIds c.clientId c.now).1
      (by rw [hstep]; simp at hlen ⊢; omega)
    have hrl : runLedger s (c :: cs)
        = runLedger (addVersionLog s c.operation c.itemIds c.clientId
          c.now).1 cs := by
      rw [runLedger, List.foldl_cons, runLedger]
    rw [hrl, hrec.1, hrec.2, hstep, addVersionLog_cv]
    constructor
    · simp; omega
    · simp; omega

/-! ## Bulk-upsert lemmas -/

theorem mem_mapSet (m : JsMap) (k : Option JVal) (v : Obj)
    (p : Option JVal × Obj) (h : p ∈ mapSet m k v) :
    p = (k, v) ∨ p ∈ m := by
  rw [mapSet] at h
  by_cases hc : m.any (fun q => q.1 = k)
  · rw [if_pos hc] at h
    rcases List.mem_map.mp h with ⟨q, hq, he⟩
    by_cases hqk : q.1 = k
    · left
      rw [← he, if_pos hqk]
    · right
      rw [← he, if_neg hqk]
      exact hq
  · rw [if_neg hc] at h
    rcases List.mem_append.mp h with h1 | h1
    · right; exact h1
    · left; exact List.mem_singleton.mp h1

theorem mem_postStep_map (strat : Strategy) (cid : String) (now : Int)
    (idField : String) (st : PostLoopState) (item : Obj)
    (p : Option JVal × Obj)
    (h : p ∈ (postStep strat cid now idField st item).map) :
    p.1 = getv item idField ∨ p ∈ st.map := by
  simp only [postStep] at h
  rcases mem_mapSet _ _ _ p h with h1 | h1
  · left; rw [h1]
  · right; exact h1

theorem mem_foldl_postStep_map (strat : Strategy) (cid : String) (now : Int)
    (idField : String) (incoming : List Obj) :
    ∀ (st : PostLoopState) (p : Option JVal × Obj),
      p ∈ (incoming.foldl (postStep strat cid now idField) st).map →
      p.1 ∉ incoming.map (fun item => getv item idField) →
      p ∈ st.map := by
  induction incoming with
  | nil => exact fun st p h _ => h
  | cons item rest ih =>
    intro st p h hni
    rw [List.map_cons, List.mem_cons] at hni
    push_neg at hni
    have h2 := ih (postStep strat cid now idField st item) p
      (by rw [List.foldl_cons] at h; exact h) hni.2
    rcases mem_postStep_map strat cid now idField st item p h2 with h3 | h3
    · exact absurd h3 hni.1
    · exact h3

theorem mapFrom_values (data : List Obj) (idField : String)
    (l : List Obj) (hl : ∀ it ∈ l, it ∈ data) :
    ∀ (m : JsMap), (∀ q ∈ m, q.2 ∈ data) →
      ∀ p ∈ l.foldl (fun m item => mapSet m (getv item idField) item) m,
        p.2 ∈ data := by
  induction l with
  | nil => exact fun m hm p hp => hm p hp
  | cons it rest ih =>
    intro m hm p hp
    rw [List.foldl_cons] at hp
    refine ih (fun x hx => hl x (List.mem_cons_of_mem it hx)) _ ?_ p hp
    intro q hq
    rcases mem_mapSet _ _ _ q hq with h1 | h1
    · rw [h1]
      exact hl it (List.mem_cons_self it rest)
    · exact hm q h1

theorem storeInv_congr (s1 s2 : StoreMetadata)
    (hv : s2.versionLog = s1.versionLog)
    (hc : s2.currentVersion = s1.currentVersion)
    (h : storeInv s1) : storeInv s2 := by
  rw [storeInv, hv, hc]
  rw [storeInv] at h
  exact h

/-- The accepted path of the bulk upsert: one ledger append shared by the
whole call, and every record in the saved store is either a pre-existing
record left untouched or carries the single new version number. -/
theorem postSync_accept_spec (s : StoreMetadata) (incoming : List Obj)
    (cid : String) (strat : Strategy) (idField : String)
    (lastVersion : Int) (now : Int)
    (hge : ¬ lastVersion < s.currentVersion) :
    ∃ s2, (postSync s incoming cid strat idField lastVersion now).save
        = some s2 ∧
      s2.currentVersion = s.currentVersion + 1 ∧
      (∃ ids, s2.versionLog
        = (addVersionLog s .bulk ids cid now).1.versionLog) ∧
      (∀ item ∈ s2.data, item ∈ s.data ∨
        getv item "version" = some (.num (s.currentVersion + 1))) ∧
      (storeInv s → storeInv s2) ∧
      (s.versionLog.length + 1 ≤ 1000 → ∃ ids,
        s2.versionLog = s.versionLog ++
          [({ version := s.currentVersion + 1, timestamp := now,
              operation := .bulk, itemIds := ids, clientId := cid }
            : VersionLogEntry)]) ∧
      (postSync s incoming cid strat idField lastVersion now).status
        = 200 := by
  simp only [postSync]
  rw [if_neg hge]
  refine ⟨_, rfl, rfl, ⟨_, rfl⟩, ?_, ?_, ?_, rfl⟩
  · intro item hitem
    rcases List.mem_map.mp hitem with ⟨q, hq, hqe⟩
    rcases List.mem_map.mp hq with ⟨p, hp, hpe⟩
    by_cases hin : p.1 ∈ incoming.map (fun item => getv item idField)
    · right
      rw [← hqe, ← hpe, if_pos hin]
      rw [getv_setKey, if_pos rfl]
      rfl
    · left
      rw [← hqe, ← hpe, if_neg hin]
      have hpm := mem_foldl_postStep_map strat cid now idField incoming
        _ p hp hin
      refine mapFrom_values s.data idField _
        (fun it hit => @List.mem_of_mem_filter _
          (fun item => notNullish (getv item idField)) it s.data hit)
        [] (by simp) p ?_
      exact hpm
  · intro hinv
    refine storeInv_congr _ _ rfl rfl ?_
    exact storeInv_addVersionLog s .bulk _ cid now hinv
  · intro hlen
    exact ⟨_, addVersionLog_log_of_le s .bulk _ cid now hlen⟩

/-! ## Single-record route invariance -/

theorem storeInv_putSync (s : StoreMetadata) (rid : String) (body : Obj)
    (cid : String) (now : Int) (h : storeInv s) :
    storeInv (putSync s rid body cid now) := by
  rw [putSync]
  cases hidx : findIdxById s.data rid with
  | some i =>
    exact storeInv_congr _ _ rfl rfl
      (storeInv_addVersionLog s .update _ cid now h)
  | none =>
    exact storeInv_congr _ _ rfl rfl
      (storeInv_addVersionLog s .create _ cid now h)

theorem storeInv_patchSync (s : StoreMetadata) (rid : String) (body : Obj)
    (cid : String) (now : Int) (s2 : StoreMetadata)
    (hs : patchSync s rid body cid now = some s2) (h : storeInv s) :
    storeInv s2 := by
  rw [patchSync] at hs
  cases hidx : findIdxById s.data rid with
  | none => rw [hidx] at hs; cases hs
  | some i =>
    rw [hidx] at hs
    injection hs with hs2
    rw [← hs2]
    exact storeInv_congr _ _ rfl rfl
      (storeInv_addVersionLog s .update _ cid now h)

theorem storeInv_deleteSync (s : StoreMetadata) (rid : String)
    (cid : String) (now : Int) (s2 : StoreMetadata)
    (hs : deleteSync s rid cid now = some s2) (h : storeInv s) :
    storeInv s2 := by
  rw [deleteSync] at hs
  cases hidx : findIdxById s.data rid with
  | none => rw [hidx] at hs; cases hs
  | some i =>
    rw [hidx] at hs
    injection hs with hs2
    rw [← hs2]
    refine storeInv_congr _ _ rfl rfl
      (storeInv_addVersionLog _ .delete _ cid now ?_)
    exact storeInv_congr _ _ rfl rfl h

/-! ## Differential-read lemmas -/

theorem mem_foldl_append {α β : Type} (f : β → List α) (l : List β) :
    ∀ (acc : List α) (x : α),
      x ∈ l.foldl (fun acc e => acc ++ f e) acc ↔
        x ∈ acc ∨ ∃ e ∈ l, x ∈ f e := by
  induction l with
  | nil => simp
  | cons e es ih =>
    intro acc x
    rw [List.foldl_cons, ih]
    rw [List.mem_append]
    constructor
    · intro h
      rcases h with (h1 | h1) | h1
      · exact Or.inl h1
      · exact Or.inr ⟨e, List.mem_cons_self e es, h1⟩
      · rcases h1 with ⟨e2, he2, hx⟩
        exact Or.inr ⟨e2, List.mem_cons_of_mem e he2, hx⟩
    · intro h
      rcases h with h1 | ⟨e2, he2, hx⟩
      · exact Or.inl (Or.inl h1)
      · rcases List.mem_cons.mp he2 with he | he
        · exact Or.inl (Or.inr (he ▸ hx))
        · exact Or.inr ⟨e2, he, hx⟩

/-- Membership characterization of the differential read. -/
theorem mem_changesSince (s : StoreMetadata) (V : Int) (r : Obj) :
    r ∈ changesSince s V ↔
      (r ∈ s.data ∧ ∃ e ∈ s.versionLog, V < e.version ∧
        (some (.str (ridOf r)) : Option JVal) ∈ e.itemIds) := by
  rw [changesSince, List.mem_filter]
  constructor
  · intro ⟨h1, h2⟩
    rw [decide_eq_true_eq] at h2
    rw [mem_foldl_append] at h2
    rcases h2 with h3 | ⟨e, he, hx⟩
    · cases h3
    · rcases List.mem_filter.mp he with ⟨he1, he2⟩
      rw [decide_eq_true_eq] at he2
      exact ⟨h1, e, he1, he2, hx⟩
  · intro ⟨h1, e, he, hv, hx⟩
    refine ⟨h1, ?_⟩
    rw [decide_eq_true_eq, mem_foldl_append]
    exact Or.inr ⟨e, List.mem_filter.mpr ⟨he, by rw [decide_eq_true_eq]; exact hv⟩, hx⟩

theorem changesSince_sublist (s : StoreMetadata) (V : Int) :
    (changesSince s V).Sublist s.data := by
  rw [changesSince]
  exact List.filter_sublist s.data

/-! ## Broadcast lemmas -/

theorem broadcastPass_go (ex : Option String)
    (conns : List (String × Conn)) :
    ∀ acc : List String × List String,
      conns.foldl (fun acc p =>
        if exMatches ex p.1 then acc
        else if p.2.sendOk then (acc.1 ++ [p.1], acc.2)
        else (acc.1, acc.2 ++ [p.1])) acc
      = (acc.1 ++ (conns.filter
            (fun p => !exMatches ex p.1 && p.2.sendOk)).map (fun p => p.1),
         acc.2 ++ (conns.filter
            (fun p => !exMatches ex p.1 && !p.2.sendOk)).map (fun p => p.1)) := by
  induction conns with
  | nil => intro acc; simp
  | cons p ps ih =>
    intro acc
    rw [List.foldl_cons]
    by_cases hex : exMatches ex p.1
    · rw [if_pos hex, ih, List.filter_cons, List.filter_cons,
        if_neg (by simp [hex]), if_neg (by simp [hex])]
    · rw [if_neg hex]
      by_cases hok : p.2.sendOk
      · rw [if_pos hok, ih, List.filter_cons, List.filter_cons,
          if_pos (by simp [hex, hok]), if_neg (by simp [hex, hok])]
        simp
      · rw [if_neg hok, ih, List.filter_cons, List.filter_cons,
          if_neg (by simp [hex, hok]), if_pos (by simp [hex, hok])]
        simp

theorem broadcastPass_spec (conns : List (String × Conn))
    (ex : Option String) :
    broadcastPass conns ex
      = ((conns.filter
            (fun p => !exMatches ex p.1 && p.2.sendOk)).map (fun p => p.1),
         (conns.filter
            (fun p => !exMatches ex p.1 && !p.2.sendOk)).map (fun p => p.1)) := by
  rw [broadcastPass, broadcastPass_go]
  simp

theorem broadcast_delivered (conns : List (String × Conn)) (event : String)
    (payload : JVal) (ex : Option String) :
    (broadcast conns event payload ex).delivered
      = (conns.filter
          (fun p => !exMatches ex p.1 && p.2.sendOk)).map (fun p => p.1) := by
  rw [broadcast]
  by_cases hc : conns.isEmpty
  · rw [if_pos hc]
    rw [List.isEmpty_iff] at hc
    rw [hc]
    rfl
  · rw [if_neg hc]
    show (broadcastPass conns ex).1 = _
    rw [broadcastPass_spec]

theorem broadcast_registry (conns : List (String × Conn)) (event : String)
    (payload : JVal) (ex : Option String) :
    (broadcast conns event payload ex).registry
      = conns.filter (fun p =>
          !((conns.filter (fun q => !exMatches ex q.1 && !q.2.sendOk)).map
            (fun q => q.1)).contains p.1) := by
  rw [broadcast]
  by_cases hc : conns.isEmpty
  · rw [if_pos hc]
    rw [List.isEmpty_iff] at hc
    rw [hc]
    rfl
  · rw [if_neg hc]
    show conns.filter _ = _
    rw [broadcastPass_spec]
    apply List.filter_congr
    intro p _
    simp

/-! ## Task-loop lemmas -/

theorem processTasks_spec {σ : Type} (exec : σ → TaskOp → Except String σ)
    (hindep : ∀ (s1 s2 : σ) (t : SyncTask),
      errOf (applyTask exec s1 t) = errOf (applyTask exec s2 t))
    (tasks : List SyncTask) :
    ∀ st0 : σ,
      (processTasks exec st0 tasks).2.1
        = tasks.filterMap (fun t =>
            match errOf (applyTask exec st0 t) with
            | none => some t.id
            | some _ => none) ∧
      (processTasks exec st0 tasks).2.2
        = tasks.filterMap (fun t =>
            (errOf (applyTask exec st0 t)).map (fun e => (t.id, e))) := by
  induction tasks with
  | nil => intro st0; exact ⟨rfl, rfl⟩
  | cons t ts ih =>
    intro st0
    rw [processTasks]
    cases hap : applyTask exec st0 t with
    | ok st2 =>
      have herr : errOf (applyTask exec st0 t) = none := by
        rw [hap]; rfl
      have hrec := ih st2
      have hcongr1 : ts.filterMap (fun t2 =>
          match errOf (applyTask exec st2 t2) with
          | none => some t2.id
          | some _ => none)
        = ts.filterMap (fun t2 =>
          match errOf (applyTask exec st0 t2) with
          | none => some t2.id
          | some _ => none) := by
        apply List.filterMap_congr
        intro t2 _
        rw [hindep st2 st0 t2]
      have hcongr2 : ts.filterMap (fun t2 =>
          (errOf (applyTask exec st2 t2)).map (fun e => (t2.id, e)))
        = ts.filterMap (fun t2 =>
          (errOf (applyTask exec st0 t2)).map (fun e => (t2.id, e))) := by
        apply List.filterMap_congr
        intro t2 _
        rw [hindep st2 st0 t2]
      rw [List.filterMap_cons, List.filterMap_cons, herr]
      constructor
      · show t.id :: (processTasks exec st2 ts).2.1
            = t.id :: ts.filterMap (fun t2 =>
                match errOf (applyTask exec st0 t2) with
                | none => some t2.id
                | some _ => none)
        rw [hrec.1, hcongr1]
      · show (processTasks exec st2 ts).2.2
            = ts.filterMap (fun t2 =>
                (errOf (applyTask exec st0 t2)).map (fun e => (t2.id, e)))
        rw [hrec.2, hcongr2]
    | error e =>
      have herr : errOf (applyTask exec st0 t) = some e := by
        rw [hap]; rfl
      have hrec := ih st0
      rw [List.filterMap_cons, List.filterMap_cons, herr]
      constructor
      · show (processTasks exec st0 ts).2.1
            = ts.filterMap (fun t2 =>
                match errOf (applyTask exec st0 t2) with
                | none => some t2.id
                | some _ => none)
        exact hrec.1
      · show (t.id, e) :: (processTasks exec st0 ts).2.2
            = (t.id, e) :: ts.filterMap (fun t2 =>
                (errOf (applyTask exec st0 t2)).map (fun e2 => (t2.id, e2)))
        rw [hrec.2]

/-! ## Claims -/

/-- C1: for every store state and every bulk-upsert call with
`lastVersion < currentVersion`, the call returns the version-conflict
result `{success: false, needsFullSync: true, serverVersion:
currentVersion}` with HTTP status 409, and nothing is persisted (`save`
is `none`, so `currentVersion`, `versionLog` and the stored records are
exactly as before). -/
theorem claim_C1 (s : StoreMetadata) (incoming : List Obj)
    (clientId : String) (strat : Strategy) (idField : String)
    (lastVersion : Int) (now : Int)
    (h : lastVersion < s.currentVersion) :
    (postSync s incoming clientId strat idField lastVersion now).status
        = 409 ∧
    (postSync s incoming clientId strat idField lastVersion now).save
        = none ∧
    getv (postSync s incoming clientId strat idField lastVersion now).body
        "success" = some (.bool false) ∧
    getv (postSync s incoming clientId strat idField lastVersion now).body
        "needsFullSync" = some (.bool true) ∧
    getv (postSync s incoming clientId strat idField lastVersion now).body
        "serverVersion" = some (.num s.currentVersion) := by
  simp only [postSync]
  rw [if_pos h]
  exact ⟨rfl, rfl, rfl, rfl, rfl⟩

/-- C1 witness: a concrete stale bulk call against a store at version 3. -/
theorem claim_C1_witness :
    (postSync ⟨[], 3, [], 0, 0⟩ [[("id", .str "b")]] "c" .fieldLevelMerge
        "id" 1 7).status = 409 ∧
    (postSync ⟨[], 3, [], 0, 0⟩ [[("id", .str "b")]] "c" .fieldLevelMerge
        "id" 1 7).save = none ∧
    getv (postSync ⟨[], 3, [], 0, 0⟩ [[("id", .str "b")]] "c"
        .fieldLevelMerge "id" 1 7).body "success" = some (.bool false) ∧
    getv (postSync ⟨[], 3, [], 0, 0⟩ [[("id", .str "b")]] "c"
        .fieldLevelMerge "id" 1 7).body "needsFullSync"
      = some (.bool true) ∧
    getv (postSync ⟨[], 3, [], 0, 0⟩ [[("id", .str "b")]] "c"
        .fieldLevelMerge "id" 1 7).body "serverVersion"
      = some (.num 3) :=
  claim_C1 ⟨[], 3, [], 0, 0⟩ [[("id", .str "b")]] "c" .fieldLevelMerge
    "id" 1 7 (by decide)

/-- C2: every ledger append increments `currentVersion` by exactly 1 and
(absent truncation) appends exactly one entry carrying the new version,
regardless of the number of item ids; an accepted bulk upsert performs a
single append so every record written by the call carries the one new
version; and after N accepted mutating calls on a fresh store (N at most
1000, so no truncation) `currentVersion = N` and the log has exactly N
entries. -/
theorem claim_C2 :
    (∀ (s : StoreMetadata) (op : Operation) (ids : List (Option JVal))
        (cid : String) (now : Int),
      (addVersionLog s op ids cid now).1.currentVersion
          = s.currentVersion + 1 ∧
      (addVersionLog s op ids cid now).2 = s.currentVersion + 1) ∧
    (∀ (s : StoreMetadata) (op : Operation) (ids : List (Option JVal))
        (cid : String) (now : Int),
      s.versionLog.length + 1 ≤ 1000 →
      (addVersionLog s op ids cid now).1.versionLog
        = s.versionLog ++
          [({ version := s.currentVersion + 1, timestamp := now,
              operation := op, itemIds := ids, clientId := cid }
            : VersionLogEntry)]) ∧
    (∀ (s : StoreMetadata) (incoming : List Obj) (cid : String)
        (strat : Strategy) (idField : String) (lastVersion now : Int),
      ¬ lastVersion < s.currentVersion →
      ∃ s2, (postSync s incoming cid strat idField lastVersion now).save
          = some s2 ∧
        s2.currentVersion = s.currentVersion + 1 ∧
        (s.versionLog.length + 1 ≤ 1000 → ∃ ids,
          s2.versionLog = s.versionLog ++
            [({ version := s.currentVersion + 1, timestamp := now,
                operation := .bulk, itemIds := ids, clientId := cid }
              : VersionLogEntry)]) ∧
        (∀ item ∈ s2.data, item ∈ s.data ∨
          getv item "version" = some (.num (s.currentVersion + 1)))) ∧
    (∀ (now0 : Int) (calls : List LedgerCall), calls.length ≤ 1000 →
      (runLedger (initStoreMetadata now0) calls).currentVersion
          = calls.length ∧
      (runLedger (initStoreMetadata now0) calls).versionLog.length
          = calls.length) := by
  refine ⟨fun s op ids cid now => ⟨rfl, rfl⟩,
    fun s op ids cid now h => addVersionLog_log_of_le s op ids cid now h,
    ?_, ?_⟩
  · intro s incoming cid strat idField lastVersion now hge
    obtain ⟨s2, hsave, hcv, _, hdata, _, hlog, _⟩ :=
      postSync_accept_spec s incoming cid strat idField lastVersion now hge
    exact ⟨s2, hsave, hcv, hlog, hdata⟩
  · intro now0 calls hlen
    have h := runLedger_accounting calls (initStoreMetadata now0)
      (by simp [initStoreMetadata]; omega)
    constructor
    · rw [h.1]
      simp [initStoreMetadata]
    · rw [h.2]
      simp [initStoreMetadata]

/-- C2 witness: a concrete append on a fresh store, the accepted empty
bulk call, and one ledger run. -/
theorem claim_C2_witness :
    ((addVersionLog ⟨[], 0, [], 0, 0⟩ .bulk [some (.str "a")] "c" 5).1.currentVersion
        = 1) ∧
    ((addVersionLog ⟨[], 0, [], 0, 0⟩ .bulk [some (.str "a")] "c" 5).1.versionLog
        = [] ++
          [({ version := 0 + 1, timestamp := 5, operation := .bulk,
              itemIds := [some (.str "a")], clientId := "c" }
            : VersionLogEntry)]) ∧
    (∃ s2, (postSync (initStoreMetadata 0) [[("id", .str "b")]] "c"
          .fieldLevelMerge "id" 0 7).save = some s2 ∧
        s2.currentVersion = 1) ∧
    ((runLedger (initStoreMetadata 0) [⟨.bulk, [some (.str "a")], "c", 5⟩]).currentVersion
        = 1) := by
  refine ⟨(claim_C2.1 ⟨[], 0, [], 0, 0⟩ .bulk [some (.str "a")] "c" 5).1,
    claim_C2.2.1 ⟨[], 0, [], 0, 0⟩ .bulk [some (.str "a")] "c" 5 (by decide),
    ?_, ?_⟩
  · obtain ⟨s2, hsave, hcv, _, _⟩ := claim_C2.2.2.1 (initStoreMetadata 0)
      [[("id", .str "b")]] "c" .fieldLevelMerge "id" 0 7 (by decide)
    refine ⟨s2, hsave, ?_⟩
    rw [hcv]
    decide
  · have h := (claim_C2.2.2.2 0 [⟨.bulk, [some (.str "a")], "c", 5⟩]
      (by decide)).1
    rw [h]
    decide

/-- C3 counterexample: two records that differ only in the business field
`f` (their bookkeeping `updated_at` fields differ as any two records
written at different times do).  The conflict report names
`["f", "updated_at"]`, not exactly `{f}`: the report loop records every
key present in both sides with different serialized values, including
volatile bookkeeping fields. -/
theorem claim_C3_counterexample :
    ((mergeObjects [("id", .num 1), ("f", .str "a"), ("updated_at", .num 100)]
        [("id", .num 1), ("f", .str "b"), ("updated_at", .num 200)]
        .fieldLevelMerge 999).2.map
        (fun c => c.resolvedFields.map (fun p => p.1))
      = some ["f", "updated_at"]) ∧
    ¬ ((mergeObjects [("id", .num 1), ("f", .str "a"), ("updated_at", .num 100)]
        [("id", .num 1), ("f", .str "b"), ("updated_at", .num 200)]
        .fieldLevelMerge 999).2.map
        (fun c => c.resolvedFields.map (fun p => p.1))
      = some ["f"]) := by
  constructor
  · decide
  · decide

/-- C3 (amended): for records `l`, `r` that differ in exactly one
non-volatile business field `f` (their volatile bookkeeping fields may
differ freely), the merged value of `f` comes from the side with the
later effective timestamp (the remote side winning ties), the conflict
report contains the entry for `f` with its local value, remote value,
resolved value and winner side, and the report names `f` together with
exactly those keys present in the remote side with differing serialized
values (which, under these hypotheses, are all volatile bookkeeping
fields) — not exactly `{f}`. -/
theorem claim_C3_amended (l r : Obj) (f : String) (lv rv : JVal) (now : Int)
    (hndl : (keys l).Nodup) (hndr : (keys r).Nodup)
    (hfnv : f ∉ volatileKeys) (hfid : f ≠ "id")
    (hlv : getv l f = some lv) (hrv : getv r f = some rv)
    (hbd : normalizeForHash lv ≠ normalizeForHash rv)
    (hagree : ∀ k, k ≠ f → k ∉ volatileKeys → getv l k = getv r k) :
    getv (mergeObjects l r .fieldLevelMerge now).1 f
        = some (if effTime r ≥ effTime l then rv else lv) ∧
    (∃ c, (mergeObjects l r .fieldLevelMerge now).2 = some c ∧
      ((f, ({ localVal := some lv, remoteVal := some rv,
              resolved := some (if effTime r ≥ effTime l then rv else lv),
              winner := if effTime r ≥ effTime l then "remote" else "local" }
            : ConflictEntry)) ∈ c.resolvedFields) ∧
      (∀ k, k ∈ c.resolvedFields.map (fun p => p.1) ↔
        (hasKey r k = true ∧ getv l k ≠ getv r k ∧
          (hasKey l k = true ∨ k ≠ "id"))) ∧
      (∀ k ∈ c.resolvedFields.map (fun p => p.1),
        k = f ∨ k ∈ volatileKeys)) := by
  have hlvrv : lv ≠ rv := fun he => hbd (by rw [he])
  have hfneq : fingerprint l ≠ fingerprint r := by
    intro he
    have h1 := fingerprint_getv l r he hndl hndr f hfnv
    rw [hlv, hrv] at h1
    injection h1 with h2
    exact hbd h2
  have hfcr : f ≠ "created_at" := fun he => hfnv (he ▸ (by decide))
  have hfup : f ≠ "updated_at" := fun he => hfnv (he ▸ (by decide))
  rw [mergeObjects_flm l r now hfneq]
  have hgm : getv (fieldLevelMerge l r (effTime l) (effTime r)) f
      = some (if effTime r ≥ effTime l then rv else lv) := by
    rw [getv_fieldLevelMerge l r (effTime l) (effTime r) f hndr, hrv]
    show flmResolve l (effTime l) (effTime r) f rv (getv l f) = _
    rw [flmResolve, if_neg hfcr, if_neg hfid,
      if_neg (by rw [not_not]; exact hasKey_of_getv l f lv hlv),
      if_pos (by rw [hlv]; intro hc; injection hc with hc2; exact hlvrv hc2),
      hlv]
    rfl
  have hKm : f ∈ keys (fieldLevelMerge l r (effTime l) (effTime r)) := by
    rw [mem_keys_iff_hasKey,
      hasKey_fieldLevelMerge_iff l r (effTime l) (effTime r) f hndr]
    exact Or.inl (hasKey_of_getv l f lv hlv)
  have hgne : getv l f ≠ getv r f := by
    rw [hlv, hrv]
    intro hc
    injection hc with hc2
    exact hlvrv hc2
  have hmem := mem_resolvedFields l r
    (fieldLevelMerge l r (effTime l) (effTime r)) (effTime l) (effTime r)
    f hKm (hasKey_of_getv r f rv hrv) hgne
  have hrf_ne : resolvedFieldsOf l r
      (fieldLevelMerge l r (effTime l) (effTime r)) (effTime l) (effTime r)
      ≠ [] := List.ne_nil_of_mem hmem
  constructor
  · rw [getv_setKey, if_neg hfup, hgm]
  · rw [if_pos hrf_ne]
    refine ⟨_, rfl, ?_, ?_, ?_⟩
    · rw [hlv, hrv, hgm] at hmem
      exact hmem
    · intro k
      rw [mem_resolvedFields_keys]
      constructor
      · intro ⟨h1, h2, h3⟩
        refine ⟨h2, h3, ?_⟩
        rw [mem_keys_iff_hasKey,
          hasKey_fieldLevelMerge_iff l r (effTime l) (effTime r) k hndr] at h1
        rcases h1 with h4 | h4
        · exact Or.inl h4
        · exact Or.inr h4.2
      · intro ⟨h1, h2, h3⟩
        refine ⟨?_, h1, h2⟩
        rw [mem_keys_iff_hasKey,
          hasKey_fieldLevelMerge_iff l r (effTime l) (effTime r) k hndr]
        rcases h3 with h4 | h4
        · exact Or.inl h4
        · exact Or.inr ⟨h1, h4⟩
    · intro k hk
      rw [mem_resolvedFields_keys] at hk
      by_cases hkf : k = f
      · exact Or.inl hkf
      · by_cases hkv : k ∈ volatileKeys
        · exact Or.inr hkv
        · exact absurd (hagree k hkf hkv) hk.2.2

/-- C3 witness for the amended theorem, at the counterexample records:
the remote side has the later effective timestamp, so its value of `f`
wins and the report contains the `f` entry. -/
theorem claim_C3_witness :
    getv (mergeObjects [("id", .num 1), ("f", .str "a"), ("updated_at", .num 100)]
        [("id", .num 1), ("f", .str "b"), ("updated_at", .num 200)]
        .fieldLevelMerge 999).1 "f" = some (.str "b") := by
  have h := (claim_C3_amended
    [("id", .num 1), ("f", .str "a"), ("updated_at", .num 100)]
    [("id", .num 1), ("f", .str "b"), ("updated_at", .num 200)]
    "f" (.str "a") (.str "b") 999
    (by decide) (by decide) (by decide) (by decide) (by decide) (by decide)
    (by decide)
    (by
      intro k h1 h2
      have hu : k ≠ "updated_at" := fun he =>
        h2 (he ▸ (by decide : "updated_at" ∈ volatileKeys))
      by_cases hid : k = "id"
      · subst hid
        decide
      · rw [getv_cons, getv_cons, getv_cons, getv_nil,
          if_neg (fun he => hid he.symm), if_neg (fun he => h1 he.symm),
          if_neg (fun he => hu he.symm),
          getv_cons, getv_cons, getv_cons, getv_nil,
          if_neg (fun he => hid he.symm), if_neg (fun he => h1 he.symm),
          if_neg (fun he => hu he.symm)])).1
  rw [h]
  decide

/-- C4: the differential read returns exactly the current records whose
id (as the string the route compares by) is referenced by a log entry
with `version > V`: membership is characterized exactly, every returned
record is a current stored value (so a deleted id is simply absent), ids
appear at most once when the record ids of the store are distinct, and every
surviving record whose id is referenced is returned. -/
theorem claim_C4 (s : StoreMetadata) (V : Int)
    (hnd : (s.data.map ridOf).Nodup) :
    (∀ r, r ∈ changesSince s V ↔
      (r ∈ s.data ∧ ∃ e ∈ s.versionLog, V < e.version ∧
        (some (.str (ridOf r)) : Option JVal) ∈ e.itemIds)) ∧
    (∀ r ∈ changesSince s V, r ∈ s.data) ∧
    ((changesSince s V).map ridOf).Nodup ∧
    (∀ t : String,
      (∃ e ∈ s.versionLog, V < e.version ∧
        (some (.str t) : Option JVal) ∈ e.itemIds) →
      ∀ r ∈ s.data, ridOf r = t → r ∈ changesSince s V) := by
  refine ⟨fun r => mem_changesSince s V r,
    fun r hr => (changesSince_sublist s V).subset hr,
    ((changesSince_sublist s V).map ridOf).nodup hnd, ?_⟩
  intro t ⟨e, he, hv, hx⟩ r hr hrt
  exact (mem_changesSince s V r).mpr ⟨hr, e, he, hv, by rw [hrt]; exact hx⟩

/-- C4 witness: a concrete store at version 3 whose only log entry
references id `a`; the record with id `a` is returned from version 2. -/
theorem claim_C4_witness :
    ([("id", .str "a"), ("v", .num 1)] : Obj) ∈ changesSince
      ⟨[[("id", .str "a"), ("v", .num 1)]], 3,
       [⟨3, 5, .bulk, [some (.str "a")], "c"⟩], 0, 5⟩ 2 := by
  refine ((claim_C4 ⟨[[("id", .str "a"), ("v", .num 1)]], 3,
      [⟨3, 5, .bulk, [some (.str "a")], "c"⟩], 0, 5⟩ 2
      (by decide)).1 [("id", .str "a"), ("v", .num 1)]).mpr ?_
  refine ⟨by decide, ⟨3, 5, .bulk, [some (.str "a")], "c"⟩, by decide,
    by decide, by decide⟩

/-- C5: when two records have equal fingerprints (identical business
content), the merge short-circuits for every strategy: it returns the
local record with only `updated_at` replaced by the maximum of the two
`updated_at` timestamps, reports no conflict, leaves every other field
exactly as in the local record, and the result is content-equal to the
local record (equal fingerprint). -/
theorem claim_C5 (l r : Obj) (a b : Int) (strat : Strategy) (now : Int)
    (hf : fingerprint l = fingerprint r)
    (hla : getv l "updated_at" = some (.num a))
    (hrb : getv r "updated_at" = some (.num b))
    (ha : 0 < a) (hb : 0 < b) :
    (mergeObjects l r strat now).1
        = setKey l "updated_at" (.num (max a b)) ∧
    (mergeObjects l r strat now).2 = none ∧
    (∀ k, k ≠ "updated_at" →
      getv (mergeObjects l r strat now).1 k = getv l k) ∧
    fingerprint (mergeObjects l r strat now).1 = fingerprint l := by
  have hlt : effTime l = a := effTime_of_updated l a hla (by omega)
  have hrt : effTime r = b := effTime_of_updated r b hrb (by omega)
  rw [mergeObjects_hash_eq l r strat now hf]
  have hsel : (if effTime r > effTime l then getv r "updated_at"
      else getv l "updated_at") = some (.num (max a b)) := by
    rw [hlt, hrt, hla, hrb]
    by_cases hab : b > a
    · rw [if_pos hab, max_eq_right (by omega : a ≤ b)]
    · rw [if_neg hab, max_eq_left (by omega : b ≤ a)]
  rw [hsel]
  refine ⟨rfl, rfl, ?_, ?_⟩
  · intro k hk
    show getv (setKey l "updated_at" (.num (max a b))) k = getv l k
    rw [getv_setKey, if_neg hk]
  · show fingerprint (setKey l "updated_at" (.num (max a b))) = fingerprint l
    exact fingerprint_setKey_volatile l "updated_at" (.num (max a b))
      (by decide)

/-- C5 witness: two concrete records with identical business content but
different timestamps and origins. -/
theorem claim_C5_witness :
    (mergeObjects
        [("id", .num 1), ("x", .str "v"), ("updated_at", .num 100),
         ("client_id", .str "c1")]
        [("id", .num 1), ("x", .str "v"), ("updated_at", .num 200),
         ("client_id", .str "c2")]
        .fieldLevelMerge 999).1
      = setKey [("id", .num 1), ("x", .str "v"), ("updated_at", .num 100),
                ("client_id", .str "c1")]
          "updated_at" (.num (max 100 200)) ∧
    (mergeObjects
        [("id", .num 1), ("x", .str "v"), ("updated_at", .num 100),
         ("client_id", .str "c1")]
        [("id", .num 1), ("x", .str "v"), ("updated_at", .num 200),
         ("client_id", .str "c2")]
        .fieldLevelMerge 999).2 = none := by
  have h := claim_C5
    [("id", .num 1), ("x", .str "v"), ("updated_at", .num 100),
     ("client_id", .str "c1")]
    [("id", .num 1), ("x", .str "v"), ("updated_at", .num 200),
     ("client_id", .str "c2")]
    100 200 .fieldLevelMerge 999 (by decide) (by decide) (by decide)
    (by decide) (by decide)
  exact ⟨h.1, h.2.1⟩

/-- C6: a broadcast with a (truthy) excluded client id never throws
(returns `success = true`), delivers the once-serialized message to
exactly the non-excluded registered connections whose send succeeds (in
registry order), reports `sentTo` equal to the number of successful
sends, never delivers to the excluded connection, and every connection
whose send failed is removed from the registry after the pass: it is
absent from the registry handed to the next call and receives nothing in
any subsequent broadcast over that registry. -/
theorem claim_C6 (conns : List (String × Conn)) (event : String)
    (payload : JVal) (e : String) (he : e ≠ "") :
    (broadcast conns event payload (some e)).success = true ∧
    (broadcast conns event payload (some e)).sentTo
        = ((broadcast conns event payload (some e)).delivered.length : Int) ∧
    (broadcast conns event payload (some e)).delivered
        = (conns.filter
            (fun p => !exMatches (some e) p.1 && p.2.sendOk)).map
          (fun p => p.1) ∧
    e ∉ (broadcast conns event payload (some e)).delivered ∧
    (∀ cid c, (cid, c) ∈ conns → cid ≠ e → c.sendOk = true →
      cid ∈ (broadcast conns event payload (some e)).delivered) ∧
    (∀ cid c, (cid, c) ∈ conns → cid ≠ e → c.sendOk = false →
      (∀ c2, (cid, c2) ∉ (broadcast conns event payload (some e)).registry) ∧
      (∀ (event2 : String) (payload2 : JVal) (ex2 : Option String),
        cid ∉ (broadcast (broadcast conns event payload (some e)).registry
          event2 payload2 ex2).delivered)) := by
  have hdel := broadcast_delivered conns event payload (some e)
  have hreg := broadcast_registry conns event payload (some e)
  have hsent : (broadcast conns event payload (some e)).sentTo
      = ((broadcast conns event payload (some e)).delivered.length : Int) := by
    rw [broadcast]
    by_cases hc : conns.isEmpty
    · rw [if_pos hc]
      rfl
    · rw [if_neg hc]
  have hsucc : (broadcast conns event payload (some e)).success = true := by
    rw [broadcast]
    by_cases hc : conns.isEmpty
    · rw [if_pos hc]
    · rw [if_neg hc]
  refine ⟨hsucc, hsent, hdel, ?_, ?_, ?_⟩
  · rw [hdel]
    intro hmem
    rcases List.mem_map.mp hmem with ⟨p, hp, hpe⟩
    have hcond := (List.mem_filter.mp hp).2
    rw [hpe] at hcond
    simp [exMatches, he] at hcond
  · intro cid c hmem hne hok
    rw [hdel]
    refine List.mem_map.mpr ⟨(cid, c), List.mem_filter.mpr ⟨hmem, ?_⟩, rfl⟩
    simp [exMatches, hne, hok]
  · intro cid c hmem hne hfail
    have habs : ∀ c2, (cid, c2) ∉ (broadcast conns event payload
        (some e)).registry := by
      intro c2 hc2
      rw [hreg] at hc2
      have hdead : cid ∈ (conns.filter
          (fun q => !exMatches (some e) q.1 && !q.2.sendOk)).map
            (fun q => q.1) := by
        refine List.mem_map.mpr ⟨(cid, c), List.mem_filter.mpr ⟨hmem, ?_⟩, rfl⟩
        simp [exMatches, hne, hfail]
      have hcont : ((conns.filter
          (fun q => !exMatches (some e) q.1 && !q.2.sendOk)).map
            (fun q => q.1)).contains cid = true :=
        List.elem_iff.mpr hdead
      have hcond : (! ((conns.filter
          (fun q => !exMatches (some e) q.1 && !q.2.sendOk)).map
            (fun q => q.1)).contains cid) = true :=
        (List.mem_filter.mp hc2).2
      rw [hcont] at hcond
      cases hcond
    refine ⟨habs, ?_⟩
    intro event2 payload2 ex2 hmem2
    rw [broadcast_delivered] at hmem2
    rcases List.mem_map.mp hmem2 with ⟨p, hp, hpe⟩
    have hpp : p = (cid, p.2) := by
      rw [← hpe]
    exact habs p.2 (hpp ▸ (List.mem_filter.mp hp).1)

/-- C6 witness: three concrete connections, one excluded, one failing. -/
theorem claim_C6_witness :
    (broadcast [("a", ⟨true⟩), ("b", ⟨false⟩), ("x", ⟨true⟩)] "ev" .null
        (some "x")).delivered = ["a"] ∧
    "x" ∉ (broadcast [("a", ⟨true⟩), ("b", ⟨false⟩), ("x", ⟨true⟩)] "ev"
        .null (some "x")).delivered ∧
    (∀ c2, ("b", c2) ∉ (broadcast [("a", ⟨true⟩), ("b", ⟨false⟩),
        ("x", ⟨true⟩)] "ev" .null (some "x")).registry) := by
  have h := claim_C6 [("a", ⟨true⟩), ("b", ⟨false⟩), ("x", ⟨true⟩)] "ev"
    .null "x" (by decide)
  refine ⟨h.2.2.1.trans (by decide), h.2.2.2.1, ?_⟩
  exact (h.2.2.2.2.2 "b" ⟨false⟩ (by decide) (by decide) (by decide)).1

/-- C7: the canonical fingerprint is insensitive to volatile bookkeeping:
whenever two values (in particular two records) have the same business
content — agree up to changing the volatile fields `created_at`,
`updated_at`, `synced_at`, `version`, `client_id` (and the computed
`hash` field) at any nesting level and up to reordering object keys —
their normalized forms, and hence their digests, are identical. -/
theorem claim_C7 :
    (∀ a b : JVal, BizEq a b → normalizeForHash a = normalizeForHash b) ∧
    (∀ l r : Obj, BizEq (.obj (List.toJObj l)) (.obj (List.toJObj r)) →
      fingerprint l = fingerprint r) :=
  ⟨bizEq_norm, fun _ _ h => bizEq_norm _ _ h⟩

/-- C7 witness: two concrete records with identical business content but
different nested timestamps, an extra `client_id`, changed top-level
`updated_at` and reordered keys. -/
theorem claim_C7_witness :
    fingerprint [("b", .num 2),
        ("a", .obj (List.toJObj [("x", .num 1), ("updated_at", .num 5)])),
        ("updated_at", .num 100)]
      = fingerprint [("a", .obj (List.toJObj [("updated_at", .num 9),
          ("x", .num 1)])),
        ("b", .num 2), ("client_id", .str "c")] := by
  refine claim_C7.2 _ _ ?_
  refine @BizEq.obj _ _ [("b", .num 2),
    ("a", .obj (List.toJObj [("updated_at", .num 9), ("x", .num 1)]))]
    (by decide) (by decide) (by decide) ?_
  show BizEqFields
    [("b", .num 2),
     ("a", .obj (List.toJObj [("x", .num 1), ("updated_at", .num 5)]))]
    [("b", .num 2),
     ("a", .obj (List.toJObj [("updated_at", .num 9), ("x", .num 1)]))]
  refine BizEqFields.cons (BizEq.refl _) ?_
  refine BizEqFields.cons ?_ BizEqFields.nil
  refine @BizEq.obj _ _ [("x", .num 1)] (by decide) (by decide)
    (by decide) ?_
  show BizEqFields [("x", .num 1)] [("x", .num 1)]
  exact BizEqFields.cons (BizEq.refl _) BizEqFields.nil

/-- C8: the ledger invariant — strictly increasing (hence unique) log
versions, each at most `currentVersion`, and at most 1000 entries — is
preserved by the ledger append and hence by every mutating operation
(bulk upsert, put, patch, delete); when an append makes the log exceed
1000 entries it is truncated to its most recent 500. -/
theorem claim_C8 :
    (∀ (s : StoreMetadata) (op : Operation) (ids : List (Option JVal))
        (cid : String) (now : Int),
      storeInv s → storeInv (addVersionLog s op ids cid now).1) ∧
    (∀ (s : StoreMetadata) (op : Operation) (ids : List (Option JVal))
        (cid : String) (now : Int),
      s.versionLog.length = 1000 →
      (addVersionLog s op ids cid now).1.versionLog
          = List.drop 501 (s.versionLog ++
            [({ version := s.currentVersion + 1, timestamp := now,
                operation := op, itemIds := ids, clientId := cid }
              : VersionLogEntry)]) ∧
      ((addVersionLog s op ids cid now).1.versionLog).length = 500) ∧
    (∀ (s : StoreMetadata) (incoming : List Obj) (cid : String)
        (strat : Strategy) (idField : String) (lastVersion now : Int)
        (s2 : StoreMetadata),
      storeInv s →
      (postSync s incoming cid strat idField lastVersion now).save = some s2 →
      storeInv s2) ∧
    (∀ (s : StoreMetadata) (rid : String) (body : Obj) (cid : String)
        (now : Int),
      storeInv s → storeInv (putSync s rid body cid now)) ∧
    (∀ (s : StoreMetadata) (rid : String) (body : Obj) (cid : String)
        (now : Int) (s2 : StoreMetadata),
      storeInv s → patchSync s rid body cid now = some s2 → storeInv s2) ∧
    (∀ (s : StoreMetadata) (rid : String) (cid : String) (now : Int)
        (s2 : StoreMetadata),
      storeInv s → deleteSync s rid cid now = some s2 → storeInv s2) := by
  refine ⟨storeInv_addVersionLog, ?_, ?_,
    fun s rid body cid now h => storeInv_putSync s rid body cid now h,
    fun s rid body cid now s2 h hs => storeInv_patchSync s rid body cid
      now s2 hs h,
    fun s rid cid now s2 h hs => storeInv_deleteSync s rid cid now s2 hs h⟩
  · intro s op ids cid now hlen
    have h1 := addVersionLog_log_trunc s op ids cid now (by omega)
    constructor
    · rw [h1, hlen]
    · rw [h1, List.length_drop, List.length_append, hlen]
      simp
  · intro s incoming cid strat idField lastVersion now s2 hinv hsave
    by_cases hge : lastVersion < s.currentVersion
    · rw [postSync, if_pos hge] at hsave
      cases hsave
    · obtain ⟨s2b, hs2, _, _, _, hinv2, _, _⟩ :=
        postSync_accept_spec s incoming cid strat idField lastVersion now hge
      rw [hs2] at hsave
      injection hsave with he
      rw [← he]
      exact hinv2 hinv

/-- C8 witness: the invariant holds after an append on a fresh store,
after a concrete PUT, and a full log of 1000 entries is truncated to its
most recent 500 by the next append. -/
theorem claim_C8_witness :
    storeInv (addVersionLog (initStoreMetadata 0) .create [some (.str "1")]
      "c" 5).1 ∧
    storeInv (putSync (initStoreMetadata 0) "1" [("id", .str "1")] "c" 5) ∧
    ((addVersionLog ⟨[], 1000,
        List.replicate 1000 ⟨1, 0, .create, [], "c"⟩, 0, 0⟩ .bulk [] "c"
        5).1.versionLog).length = 500 := by
  refine ⟨claim_C8.1 (initStoreMetadata 0) .create [some (.str "1")] "c" 5
      ⟨List.Pairwise.nil, by simp [initStoreMetadata], by
        simp [initStoreMetadata]⟩,
    claim_C8.2.2.2.1 (initStoreMetadata 0) "1" [("id", .str "1")] "c" 5
      ⟨List.Pairwise.nil, by simp [initStoreMetadata], by
        simp [initStoreMetadata]⟩,
    (claim_C8.2.1 ⟨[], 1000, List.replicate 1000 ⟨1, 0, .create, [], "c"⟩,
      0, 0⟩ .bulk [] "c" 5 (List.length_replicate 1000 _)).2⟩

/-- C9: the batch task endpoint applies tasks strictly in submission
order; a task missing `data`, `data.id`, `storeName` or `action`, or one
with an unknown action, or one whose store operation throws, is recorded
in `failedTasks` with its id and error message while every other task is
still executed; each successful task id lands in `processedTaskIds` (in
order); and the response reports both lists with `success: true`
regardless of individual failures.  The store itself is the external
`idb-manager` collaborator, abstracted as `exec`; `hindep` states that
whether the store operation of a given task throws does not depend on the
interleaved store state. -/
theorem claim_C9 {σ : Type} (exec : σ → TaskOp → Except String σ)
    (hindep : ∀ (s1 s2 : σ) (t : SyncTask),
      errOf (applyTask exec s1 t) = errOf (applyTask exec s2 t))
    (st0 : σ) (tasks : List SyncTask) (hne : ¬ tasks.isEmpty = true) :
    (postTasks exec st0 tasks).1.success = true ∧
    (postTasks exec st0 tasks).1.status = 200 ∧
    (postTasks exec st0 tasks).1.processedTaskIds
        = tasks.filterMap (fun t =>
            match errOf (applyTask exec st0 t) with
            | none => some t.id
            | some _ => none) ∧
    (postTasks exec st0 tasks).1.failedTasks
        = tasks.filterMap (fun t =>
            (errOf (applyTask exec st0 t)).map (fun e => (t.id, e))) ∧
    (∀ t : SyncTask, t.data = none →
      errOf (applyTask exec st0 t)
        = some ("Task " ++ t.id ++ " is missing data or data.id.")) ∧
    (∀ (t : SyncTask) (d : Obj), t.data = some d → getv d "id" = none →
      errOf (applyTask exec st0 t)
        = some ("Task " ++ t.id ++ " is missing data or data.id.")) ∧
    (∀ (t : SyncTask) (d : Obj) (idv : JVal), t.data = some d →
      getv d "id" = some idv → (t.storeName = "" ∨ t.action = "") →
      errOf (applyTask exec st0 t)
        = some ("Task " ++ t.id ++ " is missing storeName or action."
            ++ t.storeName)) ∧
    (∀ (t : SyncTask) (d : Obj) (idv : JVal), t.data = some d →
      getv d "id" = some idv → ¬ (t.storeName = "" ∨ t.action = "") →
      (t.action = "create" ∨ t.action = "update") →
      errOf (applyTask exec st0 t)
        = errOf (exec st0 (.add t.storeName d))) := by
  have hspec := processTasks_spec exec hindep tasks st0
  refine ⟨?_, ?_, ?_, ?_, ?_, ?_, ?_, ?_⟩
  · rw [postTasks, if_neg hne]
  · rw [postTasks, if_neg hne]
  · rw [postTasks, if_neg hne]
    exact hspec.1
  · rw [postTasks, if_neg hne]
    exact hspec.2
  · intro t hd
    simp only [applyTask, hd, errOf]
  · intro t d hd hid
    simp only [applyTask, hd, hid, errOf]
  · intro t d idv hd hid hmiss
    simp only [applyTask, hd, hid]
    rw [if_pos hmiss]
    rfl
  · intro t d idv hd hid hmiss hact
    simp only [applyTask, hd, hid]
    rw [if_neg hmiss, if_pos hact]

/-- C9 witness: three concrete tasks — a valid update, a task missing
its data id, and a task whose store operation throws — run against a
concrete collaborator; the valid task is processed, the two failures are
recorded in order with their messages, and the response succeeds. -/
theorem claim_C9_witness :
    (postTasks (fun (st : Unit) (op : TaskOp) =>
        match op with
        | .add sn _ => if sn = "boom" then .error "db down" else .ok st
        | .del _ _ => .ok st) ()
      [⟨"1", "products", "update", some [("id", .num 1)]⟩,
       ⟨"2", "products", "update", some [("x", .num 1)]⟩,
       ⟨"3", "boom", "create", some [("id", .num 3)]⟩]).1.success = true ∧
    (postTasks (fun (st : Unit) (op : TaskOp) =>
        match op with
        | .add sn _ => if sn = "boom" then .error "db down" else .ok st
        | .del _ _ => .ok st) ()
      [⟨"1", "products", "update", some [("id", .num 1)]⟩,
       ⟨"2", "products", "update", some [("x", .num 1)]⟩,
       ⟨"3", "boom", "create", some [("id", .num 3)]⟩]).1.processedTaskIds
      = ["1"] ∧
    (postTasks (fun (st : Unit) (op : TaskOp) =>
        match op with
        | .add sn _ => if sn = "boom" then .error "db down" else .ok st
        | .del _ _ => .ok st) ()
      [⟨"1", "products", "update", some [("id", .num 1)]⟩,
       ⟨"2", "products", "update", some [("x", .num 1)]⟩,
       ⟨"3", "boom", "create", some [("id", .num 3)]⟩]).1.failedTasks
      = [("2", "Task 2 is missing data or data.id."),
         ("3", "db down")] := by
  have hindep : ∀ (s1 s2 : Unit) (t : SyncTask),
      errOf (applyTask (fun (st : Unit) (op : TaskOp) =>
        match op with
        | .add sn _ => if sn = "boom" then .error "db down" else .ok st
        | .del _ _ => .ok st) s1 t)
        = errOf (applyTask (fun (st : Unit) (op : TaskOp) =>
        match op with
        | .add sn _ => if sn = "boom" then .error "db down" else .ok st
        | .del _ _ => .ok st) s2 t) := by
    intro s1 s2 t
    cases s1
    cases s2
    rfl
  have h := claim_C9 (fun (st : Unit) (op : TaskOp) =>
      match op with
      | .add sn _ => if sn = "boom" then .error "db down" else .ok st
      | .del _ _ => .ok st) hindep ()
    [⟨"1", "products", "update", some [("id", .num 1)]⟩,
     ⟨"2", "products", "update", some [("x", .num 1)]⟩,
     ⟨"3", "boom", "create", some [("id", .num 3)]⟩] (by decide)
  exact ⟨h.1, h.2.2.1.trans (by decide), h.2.2.2.1.trans (by decide)⟩

/-- C10: in the single-record merge path, an incoming body carrying
neither `updated_at` nor `created_at` gets the zero time as its effective
timestamp; consequently, whenever the effective timestamp of the stored record
is after the zero time (and the two differ in business content), every
field present in both keeps the value of the stored record — the incoming
value is discarded — and only fields absent from the stored record
(other than the never-merged `id`) are adopted from the body.  The
`updated_at` of the merge result is freshly stamped by `mergeObjects`
itself and is the one stored field not governed by this. -/
theorem claim_C10 (ex body : Obj) (now : Int)
    (hndb : (keys body).Nodup)
    (hnu : ¬ hasKey body "updated_at" = true)
    (hnc : ¬ hasKey body "created_at" = true)
    (hfp : fingerprint ex ≠ fingerprint body)
    (hpos : 0 < effTime ex) :
    effTime body = 0 ∧
    (∀ k, k ≠ "updated_at" → hasKey ex k = true →
      getv (mergeObjects ex body .fieldLevelMerge now).1 k = getv ex k) ∧
    (∀ k, ¬ hasKey ex k = true → hasKey body k = true → k ≠ "id" →
      getv (mergeObjects ex body .fieldLevelMerge now).1 k = getv body k) := by
  have h0 : effTime body = 0 := effTime_of_missing body hnu hnc
  refine ⟨h0, ?_, ?_⟩
  · intro k hku hke
    rw [mergeObjects_flm ex body now hfp, getv_setKey, if_neg hku,
      getv_fieldLevelMerge ex body (effTime ex) (effTime body) k hndb]
    cases hb : getv body k with
    | none => rfl
    | some rv =>
      show flmResolve ex (effTime ex) (effTime body) k rv (getv ex k)
        = getv ex k
      have hkc : k ≠ "created_at" := fun he =>
        hnc (he ▸ hasKey_of_getv body k rv hb)
      rw [flmResolve, if_neg hkc]
      by_cases hkid : k = "id"
      · rw [if_pos hkid]
      · rw [if_neg hkid, if_neg (by rw [not_not]; exact hke)]
        by_cases hne : getv ex k ≠ some rv
        · rw [if_pos hne]
          have hsome := (hasKey_iff_getv ex k).mp hke
          cases hgl : getv ex k with
          | none => rw [hgl] at hsome; simp at hsome
          | some lv =>
            rw [if_neg (by rw [h0]; omega)]
            rfl
        · rw [if_neg hne]
  · intro k hkex hkb hkid
    have hku : k ≠ "updated_at" := fun he => hnu (he ▸ hkb)
    have hkc : k ≠ "created_at" := fun he => hnc (he ▸ hkb)
    rw [mergeObjects_flm ex body now hfp, getv_setKey, if_neg hku,
      getv_fieldLevelMerge ex body (effTime ex) (effTime body) k hndb]
    cases hb : getv body k with
    | none =>
      have := (hasKey_iff_getv body k).mp hkb
      rw [hb] at this
      simp at this
    | some rv =>
      show flmResolve ex (effTime ex) (effTime body) k rv (getv ex k)
        = some rv
      rw [flmResolve, if_neg hkc, if_neg hkid, if_pos hkex]

/-- C10 witness: a stored record with a positive effective timestamp
merged with a timestamp-free body; the shared differing field `b` keeps
the stored value and the new field `c` is adopted. -/
theorem claim_C10_witness :
    effTime [("id", .str "1"), ("b", .num 9), ("c", .num 3)] = 0 ∧
    getv (mergeObjects
        [("id", .str "1"), ("a", .num 1), ("b", .num 2),
         ("updated_at", .num 50)]
        [("id", .str "1"), ("b", .num 9), ("c", .num 3)]
        .fieldLevelMerge 77).1 "b"
      = some (.num 2) ∧
    getv (mergeObjects
        [("id", .str "1"), ("a", .num 1), ("b", .num 2),
         ("updated_at", .num 50)]
        [("id", .str "1"), ("b", .num 9), ("c", .num 3)]
        .fieldLevelMerge 77).1 "c"
      = some (.num 3) := by
  have h := claim_C10
    [("id", .str "1"), ("a", .num 1), ("b", .num 2), ("updated_at", .num 50)]
    [("id", .str "1"), ("b", .num 9), ("c", .num 3)] 77
    (by decide) (by decide) (by decide) (by decide) (by decide)
  refine ⟨h.1, ?_, ?_⟩
  · rw [h.2.1 "b" (by decide) (by decide)]
    decide
  · rw [h.2.2 "c" (by decide) (by decide) (by decide)]
    decide

end SyncIdb
